import Mathlib

/-!
Verification of the `trid` Go package (src/trid.go), a wrapper around the
TrID command-line file identifier.  The development shallowly embeds the
package's pure core — `parseOutput`, `checkTridError`, and the control flow
of `Scan` — over `List Char` (Go strings are modelled as character lists).

Modelling conventions:
* Go's two package-level regular expressions (`reFileInfo`, `reFileDetails`)
  are compiled with RE2 leftmost-first submatch semantics.  They are embedded
  as specialized deterministic matchers below; each matcher follows the
  backtracking preferences of the pattern (greedy character-class runs that
  cannot backtrack because the follow-set is disjoint from the class, lazy
  groups that take the shortest viable text, and the final greedy optional
  qualifier group).  Since `.` does not match a newline in RE2 and `$` with
  the `m` flag matches at each end of line, header and detail matches are
  located line by line, in order, which coincides with leftmost matching for
  every text in which the patterns do not straddle a line boundary through
  the whitespace class.  In particular `\s` does match `\n` in RE2, so on a
  detail line whose value is empty the greedy `\s*` after the colon crosses
  the line break and Go captures the next line's text as the value; the
  line-local matchers here do not model that, and every theorem quantifying
  over symbolic detail lines therefore requires values to be non-empty and
  to start with a non-whitespace character, keeping its inputs inside the
  region where the line-local matcher agrees with the regex.
* `strconv.ParseFloat` is modelled exactly on its reachable inputs: the
  probability capture group is drawn from the class `[0-9.]`, so the model
  accepts strings of digits with at most one dot (and at least one digit)
  and returns the exact decimal value as a rational.
* Probabilities are rationals (`ℚ`); the decimal values appearing in the
  claims (85.50, 10.00, …) are exactly representable, so nothing is lost.
* Process execution and `os.Stat` are oracles: `Scan` is a function of the
  stat outcome and of the text/error the subprocess would produce, plus
  ghost fields recording whether the subprocess was reached and whether the
  report parser ran.
-/

/-- Character list of a string literal (Go strings are byte/char sequences). -/
def chars (s : String) : List Char := s.data

/-- RE2's `\s` class used by the Go patterns: `[\t\n\f\r ]`. -/
def isSpaceCh (c : Char) : Bool :=
  c = ' ' || c = '\t' || c = '\n' || c = '\x0c' || c = '\r'

/-- ASCII digit, the `0-9` part of the class `[0-9.]` in `reFileInfo`. -/
def isDigitCh (c : Char) : Bool := '0' ≤ c && c ≤ '9'

/-- The character class `[0-9.]` of `reFileInfo`'s probability group. -/
def isDigitDotCh (c : Char) : Bool := isDigitCh c || c = '.'

/-- The character class `[^()]` of `reFileInfo`'s qualifier groups. -/
def isQualCh (c : Char) : Bool := c ≠ '(' && c ≠ ')'

/-- ASCII lower-casing of one character, the effect of Go's
`strings.ToLower` (and of RE2's case folding) on the ASCII range. -/
def asciiLower (c : Char) : Char :=
  if 65 ≤ c.toNat ∧ c.toNat ≤ 90 then Char.ofNat (c.toNat + 32) else c

/-- Lower-casing of a string, modelling `strings.ToLower`. -/
def lowerL (l : List Char) : List Char := l.map asciiLower

/-- Does `pat` occur at the head of `l`?  (Case-sensitive.) -/
def startsWithL : List Char → List Char → Bool
  | [], _ => true
  | _ :: _, [] => false
  | a :: as, b :: bs => a = b && startsWithL as bs

/-- `strings.Contains hay needle`: case-sensitive substring containment. -/
def containsSub : List Char → List Char → Bool
  | hay, needle =>
    startsWithL needle hay ||
      match hay with
      | [] => false
      | _ :: t => containsSub t needle

/-- `strings.TrimSpace`, on the whitespace actually reachable here. -/
def trimSpace (l : List Char) : List Char :=
  ((l.dropWhile isSpaceCh).reverse.dropWhile isSpaceCh).reverse

/-- `strings.ReplaceAll out "\r\n" "\n"` (leftmost, non-overlapping). -/
def replaceCRLF : List Char → List Char
  | [] => []
  | [c] => [c]
  | c :: d :: t =>
    if c = '\r' ∧ d = '\n' then '\n' :: replaceCRLF t
    else c :: replaceCRLF (d :: t)

/-- `strings.Split s "\n\n"` (split around each non-overlapping leftmost
occurrence of a blank-line separator). -/
def splitOnBlank : List Char → List (List Char)
  | [] => [[]]
  | [c] => [[c]]
  | c :: d :: t =>
    if c = '\n' ∧ d = '\n' then [] :: splitOnBlank t
    else
      match splitOnBlank (d :: t) with
      | [] => [[c]]
      | h :: r => (c :: h) :: r

/-- The lines of a block (split at every newline).  Device for the per-line
reading of the `(?m)` flag: `$` matches at each end of line and `.` never
crosses a newline, so submatches of both patterns live inside single lines. -/
def splitLines : List Char → List (List Char)
  | [] => [[]]
  | c :: t =>
    if c = '\n' then [] :: splitLines t
    else
      match splitLines t with
      | [] => [[c]]
      | h :: r => (c :: h) :: r

/-- Join lines with single newlines (left inverse of `splitLines` used to
state theorems about multi-line blocks). -/
def joinLines : List (List Char) → List Char
  | [] => []
  | [l] => l
  | l :: ls => l ++ '\n' :: joinLines ls

/-- Does the text contain two consecutive newlines? -/
def hasBlank : List Char → Bool
  | [] => false
  | [_] => false
  | c :: d :: t => (c = '\n' && d = '\n') || hasBlank (d :: t)

/-- Numeric value of a digit character. -/
def digitVal (c : Char) : Nat := c.toNat - 48

/-- Value of a digit string. -/
def natValD (l : List Char) : Nat := l.foldl (fun a c => 10 * a + digitVal c) 0

/-- `strconv.ParseFloat` on its reachable inputs.  The argument is always a
(trimmed, `%`-free) capture of the class `[0-9.]+`, so the accepted shapes
are exactly: digits, `digits.digits`, `digits.`, `.digits` — at least one
digit, at most one dot.  The result is the exact decimal value. -/
def parseDecimal (l : List Char) : Option ℚ :=
  let ds := l.takeWhile isDigitCh
  match l.drop ds.length with
  | [] => if ds.isEmpty then none else some (mkRat (natValD ds) 1)
  | '.' :: fs =>
    if fs.all isDigitCh && (!ds.isEmpty || !fs.isEmpty) then
      some (mkRat (natValD ds * 10 ^ fs.length + natValD fs) (10 ^ fs.length))
    else none
  | _ => none

/-! ## The header pattern `reFileInfo`

`reFileInfo = (?mi)([0-9.]+%)\s+\((\..*?)\)\s+(.*?(?:\s+\([^()]+\))*?)(?:\s+\([^()]+\))?$`

`FindStringSubmatch` returns the leftmost match with leftmost-first
(backtracking-order) submatches.  The matcher below realizes exactly those
preferences, resolved where the pattern is deterministic:
* `[0-9.]+` is greedy and its follow `%` is outside the class, so the group
  is the maximal class run followed by a literal `%` — no backtracking;
* each `\s+` is greedy and is followed by a character outside `\s`
  (`\(` after the percent; after the extension, by a tail that matches every
  remainder of a line), so it is the maximal whitespace run, at least one;
* the lazy `(\..*?)` before `\)` takes the shortest text; if the overall
  match fails after the chosen `)`, the lazy group extends past it, so the
  extension closes at the first `)` that is followed by whitespace;
* the name tail `(.*?(?:\s+\([^()]+\))*?)(?:\s+\([^()]+\))?$` always matches
  the rest of the line: the lazy `.*?` takes the shortest prefix whose
  remainder is a non-empty exact sequence of qualifier groups (else the whole
  line), and the final greedy optional group then swallows the last
  qualifier, which is therefore stripped from the captured name. -/

/-- One qualifier group `\s+\([^()]+\)`: returns its text and the remainder.
Both inner quantifiers are deterministic (their follow is outside the class). -/
def parseOneUnit (r : List Char) : Option (List Char × List Char) :=
  if (r.takeWhile isSpaceCh).isEmpty then none
  else
    match r.drop (r.takeWhile isSpaceCh).length with
    | '(' :: r2 =>
      if (r2.takeWhile isQualCh).isEmpty then none
      else
        match r2.drop (r2.takeWhile isQualCh).length with
        | ')' :: r3 =>
          some (r.takeWhile isSpaceCh ++ '(' :: r2.takeWhile isQualCh ++ [')'], r3)
        | _ => none
    | _ => none

/-- The qualifier sequence parser, with explicit fuel so that the recursion
is structural (each qualifier group consumes at least three characters, so
`r.length` units of fuel always suffice; see `parseUnits_eq`). -/
def parseUnitsGo : Nat → List Char → Option (List (List Char))
  | 0, _ => none
  | fuel + 1, r =>
    match parseOneUnit r with
    | none => none
    | some (u, r3) =>
      if r3.isEmpty then some [u]
      else
        match parseUnitsGo fuel r3 with
        | none => none
        | some us => some (u :: us)

/-- Succeeds iff the text is exactly a non-empty concatenation of qualifier
groups `\s+\([^()]+\)`, returning their texts. -/
def parseUnits (r : List Char) : Option (List (List Char)) :=
  parseUnitsGo r.length r

/-- The name tail of `reFileInfo` on the rest of the line: the lazy `.*?`
takes the shortest prefix whose remainder is exactly a qualifier sequence;
the final greedy optional group then strips the last qualifier. -/
def stripTailAux : List Char → List Char → List Char
  | processed, [] => processed
  | processed, c :: t =>
    match parseUnits (c :: t) with
    | some us => processed ++ us.dropLast.flatten
    | none => stripTailAux (processed ++ [c]) t

/-- Submatch 3 of `reFileInfo` given the text from after the whitespace that
follows the extension to the end of the line. -/
def stripTail (s : List Char) : List Char := stripTailAux [] s

/-- The extension group: `(\..*?)\)\s+` after the leading dot.  The lazy
group closes at the first `)` followed by whitespace (the name tail matches
any remainder of a line, so nothing after the whitespace can fail); if a `)`
is not followed by whitespace the lazy group extends past it.  Returns the
extension text after the dot and the rest of the line with the whitespace
run consumed. -/
def findExt : List Char → List Char → Option (List Char × List Char)
  | _, [] => none
  | acc, c :: rest =>
    if c = ')' then
      if (rest.takeWhile isSpaceCh).isEmpty then findExt (acc ++ [c]) rest
      else some (acc, rest.dropWhile isSpaceCh)
    else findExt (acc ++ [c]) rest

/-- Attempt `reFileInfo` at one position of a line (submatches 1–3). -/
def matchHeaderAt (l : List Char) : Option (List Char × List Char × List Char) :=
  if (l.takeWhile isDigitDotCh).isEmpty then none
  else
    match l.drop (l.takeWhile isDigitDotCh).length with
    | '%' :: r1 =>
      if (r1.takeWhile isSpaceCh).isEmpty then none
      else
        match r1.drop (r1.takeWhile isSpaceCh).length with
        | '(' :: '.' :: r2 =>
          match findExt [] r2 with
          | some (e, rest) =>
            some (l.takeWhile isDigitDotCh ++ ['%'], '.' :: e, stripTail rest)
          | none => none
        | _ => none
    | _ => none

/-- Leftmost match of `reFileInfo` within one line: try every start
position from the left. -/
def scanHeader : List Char → Option (List Char × List Char × List Char)
  | [] => none
  | c :: t =>
    match matchHeaderAt (c :: t) with
    | some x => some x
    | none => scanHeader t

/-- `reFileInfo.FindStringSubmatch` on a block: the leftmost match, i.e. the
first line (in order) with a match, at its leftmost position. -/
def findHeader : List (List Char) → Option (List Char × List Char × List Char)
  | [] => none
  | l :: ls =>
    match scanHeader l with
    | some x => some x
    | none => findHeader ls

/-! ## The detail pattern `reFileDetails`

`reFileDetails = (?mi)(Mime type|Related URL|Definition|Remarks)\s*:\s*(.*?)$`

Case-insensitive alternation (submatch 1 keeps the original text), `\s*`
runs are deterministic (`:` and the lazy-to-`$` group follow them), and
`(.*?)$` captures the whole rest of the line.  A match runs to the end of
its line, so matches of `FindAllStringSubmatch` are in line order, at most
one per line (the next scan resumes past the end of line). -/

/-- The four alternation branches, in pattern order. -/
def keyStrs : List (List Char) :=
  [chars "Mime type", chars "Related URL", chars "Definition", chars "Remarks"]

/-- Try the alternation at one position: the first branch (in order) whose
key matches case-insensitively and is followed by `\s*:` yields submatches
(original key text, rest of line after `:` and the following `\s*`). -/
def tryKeys : List (List Char) → List Char → Option (List Char × List Char)
  | [], _ => none
  | k :: ks, l =>
    if lowerL (l.take k.length) = lowerL k then
      match (l.drop k.length).drop ((l.drop k.length).takeWhile isSpaceCh).length with
      | ':' :: r2 => some (l.take k.length, r2.dropWhile isSpaceCh)
      | _ => tryKeys ks l
    else tryKeys ks l

/-- Leftmost match of `reFileDetails` within one line. -/
def scanDetail : List Char → Option (List Char × List Char)
  | [] => none
  | c :: t =>
    match tryKeys keyStrs (c :: t) with
    | some x => some x
    | none => scanDetail t

/-- `reFileDetails.FindAllStringSubmatch` on a block, as (key, value) pairs
in match order. -/
def detailsOf (ls : List (List Char)) : List (List Char × List Char) :=
  ls.filterMap scanDetail

/-- `FileType` (src/trid.go): one identified candidate. -/
structure FileType where
  Extension : List Char
  Probability : ℚ
  Name : List Char
  MimeType : List Char
  RelatedURL : List Char
  Remarks : List Char
  Definition : List Char
deriving DecidableEq, Repr

/-- One step of the `switch m[1]` loop over detail matches: an exact,
case-sensitive comparison against the four keys; other keys change nothing. -/
def applyDetail (f : FileType) (m : List Char × List Char) : FileType :=
  if m.1 = chars "Mime type" then { f with MimeType := m.2 }
  else if m.1 = chars "Related URL" then { f with RelatedURL := m.2 }
  else if m.1 = chars "Definition" then { f with Definition := m.2 }
  else if m.1 = chars "Remarks" then { f with Remarks := m.2 }
  else f

/-- Cleanup of the captured probability field: remove every `%`
(`strings.Replace` with count -1) and trim surrounding whitespace. -/
def probField (g1 : List Char) : List Char :=
  trimSpace (g1.filter (fun c => c ≠ '%'))

/-- The body of `parseOutput`'s loop for one block: header match (a failed
match, `len(fileInfo) != 4`, skips the block), probability cleanup and
parse (failures skip the block), then the detail-line loop. -/
def processBlock (b : List Char) : Option FileType :=
  match findHeader (splitLines b) with
  | none => none
  | some (g1, g2, g3) =>
    if (probField g1).isEmpty then none
    else
      match parseDecimal (probField g1) with
      | none => none
      | some prob =>
        some ((detailsOf (splitLines b)).foldl applyDetail
          { Extension := lowerL g2, Probability := prob, Name := g3,
            MimeType := [], RelatedURL := [], Remarks := [], Definition := [] })

/-- The closed error taxonomy of the package (the `Err…` sentinel values),
plus `underlying` for propagated non-classified errors (other stat failures
and subprocess execution errors, carried with their message). -/
inductive ScanErr where
  | noFileSpecified
  | numberOfMatches
  | noDefinitions
  | emptyDefPackage
  | fileNotFound
  | unknownFileType
  | underlying (msg : List Char)
deriving DecidableEq, Repr

/-- `parseOutput` (src/trid.go): normalize line endings, split into blocks
on blank lines, process each block, and return the records together with
the error value, which is literally `nil`. -/
def parseOutputM (out : List Char) : List FileType × Option ScanErr :=
  ((splitOnBlank (replaceCRLF out)).filterMap processBlock, none)

/-! ## The error classifier and the scanner (src/trid.go) -/

/-- `checkTridError` (src/trid.go): case-sensitive substring checks against
the five literal diagnostic phrases, in source order; first match wins. -/
def checkTridError (out : List Char) : Option ScanErr :=
  if containsSub out (chars "you have to specify at least one file to analyze") then
    some .noFileSpecified
  else if containsSub out (chars "No definitions available!") then
    some .noDefinitions
  else if containsSub out (chars "Def package") && containsSub out (chars "is empty!") then
    some .emptyDefPackage
  else if containsSub out (chars "Error: found no file(s) to analyze!") then
    some .fileNotFound
  else if containsSub out (chars "Unknown!") then
    some .unknownFileType
  else none

/-- Modelled from the spec ("inspect it for a fixed, ordered set of
substring signatures and return the first matching ClassifiedError, else
none"): a generic first-match scan over an ordered signature list, used to
state claim C2 as a refinement of `checkTridError`. -/
def firstMatching : List ((List Char → Bool) × ScanErr) → List Char → Option ScanErr
  | [], _ => none
  | s :: ss, out => if s.1 out then some s.2 else firstMatching ss out

/-- The five signatures of `checkTridError`, in its priority order:
no-file-specified, no-definitions-available, empty-definitions-package
(which requires both of its substrings), file-not-found, unknown-file-type.
Matching is case-sensitive substring containment. -/
def errorSignatures : List ((List Char → Bool) × ScanErr) :=
  [(fun out => containsSub out (chars "you have to specify at least one file to analyze"),
    .noFileSpecified),
   (fun out => containsSub out (chars "No definitions available!"), .noDefinitions),
   (fun out => containsSub out (chars "Def package") && containsSub out (chars "is empty!"),
    .emptyDefPackage),
   (fun out => containsSub out (chars "Error: found no file(s) to analyze!"), .fileNotFound),
   (fun out => containsSub out (chars "Unknown!"), .unknownFileType)]

/-- Outcome of the `os.Stat(filePath)` call, as an oracle: the file exists,
the stat error satisfies `os.IsNotExist`, or stat fails otherwise. -/
inductive StatResult where
  | ok
  | notExist
  | otherErr (msg : List Char)
deriving DecidableEq, Repr

/-- The pair returned by `Scan` — `files` is `none` for a nil slice — plus
two ghost observations: `invoked` records the argument list passed to
`execCmd` (`none` when no subprocess was started) and `parsed` records
whether `parseOutput` ran. -/
structure ScanOutcome where
  files : Option (List FileType)
  error : Option ScanErr
  invoked : Option (List (List Char))
  parsed : Bool
deriving DecidableEq, Repr

/-- `strconv.Itoa` on the (positive) match count. -/
def itoa (n : Int) : List Char := (toString n).data

/-- `Scan` (src/trid.go): validation in source order (empty path, stat,
match count), argument-list assembly, subprocess execution (its combined
output `execOut` and error `execErr` are oracle inputs), error
classification on the captured text, propagation of the execution error,
then parsing.  `definitions` is `t.options.Definitions`. -/
def scanModel (definitions filePath : List Char) (n : Int) (stat : StatResult)
    (execOut : List Char) (execErr : Option (List Char)) : ScanOutcome :=
  if filePath.isEmpty then
    { files := none, error := some .noFileSpecified, invoked := none, parsed := false }
  else
    match stat with
    | .notExist =>
      { files := none, error := some .fileNotFound, invoked := none, parsed := false }
    | .otherErr m =>
      { files := none, error := some (.underlying m), invoked := none, parsed := false }
    | .ok =>
      if n < 1 then
        { files := none, error := some .numberOfMatches, invoked := none, parsed := false }
      else
        let args := [chars "-v", chars "-n:" ++ itoa n] ++
          (if definitions.isEmpty then [] else [chars "-d:" ++ definitions]) ++ [filePath]
        match checkTridError execOut with
        | some e =>
          { files := none, error := some e, invoked := some args, parsed := false }
        | none =>
          match execErr with
          | some m =>
            { files := none, error := some (.underlying m), invoked := some args,
              parsed := false }
          | none =>
            { files := some (parseOutputM execOut).1,
              error := (parseOutputM execOut).2,
              invoked := some args, parsed := true }

/-- The four recognized detail keys. -/
inductive DKey where
  | mime
  | url
  | defn
  | remarks
deriving DecidableEq, Repr

/-- The text of a recognized key. -/
def keyStr : DKey → List Char
  | .mime => chars "Mime type"
  | .url => chars "Related URL"
  | .defn => chars "Definition"
  | .remarks => chars "Remarks"

/-- A canonical detail line `<Key>: <value>`. -/
def mkDetailLine (p : DKey × List Char) : List Char :=
  keyStr p.1 ++ ':' :: ' ' :: p.2

/-- The value the overwrite loop leaves in a field: the last value carried
by key `k`, else the default. -/
def lastValD (ds : List (DKey × List Char)) (k : DKey) (dflt : List Char) : List Char :=
  ds.foldl (fun acc p => if p.1 = k then p.2 else acc) dflt

/-- The text of one qualifier group `(ws, content)`. -/
def mkUnit (p : List Char × List Char) : List Char :=
  p.1 ++ '(' :: p.2 ++ [')']

/-- The concatenated text of a qualifier-group sequence. -/
def unitsText : List (List Char × List Char) → List Char
  | [] => []
  | p :: rest => mkUnit p ++ unitsText rest

/-- Well-formedness of one qualifier group: non-empty whitespace (free of
line breaks), non-empty content drawn from `[^()]` (free of line breaks). -/
abbrev wfUnit (p : List Char × List Char) : Prop :=
  p.1 ≠ [] ∧ (∀ c ∈ p.1, isSpaceCh c = true ∧ c ≠ '\n' ∧ c ≠ '\r') ∧
  p.2 ≠ [] ∧ (∀ c ∈ p.2, isQualCh c = true ∧ c ≠ '\n' ∧ c ≠ '\r')

/-! ## Helper lemmas for the fuel-based unit parser -/

theorem length_takeWhileL_le (p : Char → Bool) (l : List Char) :
    (l.takeWhile p).length ≤ l.length := by
  have h := congrArg List.length (List.takeWhile_append_dropWhile p l)
  rw [List.length_append] at h
  omega

theorem parseOneUnit_length_lt {r : List Char} {u r3}
    (h : parseOneUnit r = some (u, r3)) : r3.length < r.length := by
  unfold parseOneUnit at h
  split at h
  · exact absurd h (by simp)
  · rename_i hws
    split at h
    · rename_i r2 h2
      split at h
      · exact absurd h (by simp)
      · split at h
        · rename_i r3' h3
          obtain ⟨hu, hr3⟩ := Prod.mk.inj (Option.some.inj h)
          subst hr3
          have e2 := congrArg List.length h2
          have e3 := congrArg List.length h3
          simp only [List.length_drop, List.length_cons] at e2 e3
          have l2 := length_takeWhileL_le isSpaceCh r
          have l3 := length_takeWhileL_le isQualCh r2
          have hws1 : 1 ≤ (r.takeWhile isSpaceCh).length := by
            cases hgo : r.takeWhile isSpaceCh with
            | nil => rw [hgo] at hws; simp at hws
            | cons a t => simp [hgo]
          omega
        · exact absurd h (by simp)
    · exact absurd h (by simp)

theorem parseUnitsGo_fuel : ∀ (f g : Nat) (r : List Char),
    r.length ≤ f → r.length ≤ g → parseUnitsGo f r = parseUnitsGo g r := by
  intro f
  induction f using Nat.strong_induction_on with
  | _ f ih =>
    intro g r hf hg
    match f, g with
    | 0, 0 => rfl
    | 0, g + 1 =>
      have : r = [] := List.length_eq_zero.mp (Nat.le_zero.mp hf)
      subst this
      simp [parseUnitsGo, parseOneUnit]
    | f + 1, 0 =>
      have : r = [] := List.length_eq_zero.mp (Nat.le_zero.mp hg)
      subst this
      simp [parseUnitsGo, parseOneUnit]
    | f + 1, g + 1 =>
      show parseUnitsGo (f + 1) r = parseUnitsGo (g + 1) r
      unfold parseUnitsGo
      cases h1 : parseOneUnit r with
      | none => rfl
      | some ur =>
        obtain ⟨u, r3⟩ := ur
        have hlt := parseOneUnit_length_lt h1
        by_cases h3 : r3.isEmpty
        · simp [h3]
        · simp only [h3, if_false]
          rw [ih f (Nat.lt_succ_self f) g r3 (by omega) (by omega)]

/-- Unfolding rule for `parseUnits`. -/
theorem parseUnits_eq (r : List Char) :
    parseUnits r =
      match parseOneUnit r with
      | none => none
      | some (u, r3) =>
        if r3.isEmpty then some [u]
        else
          match parseUnits r3 with
          | none => none
          | some us => some (u :: us) := by
  show parseUnitsGo r.length r = _
  cases hr : r with
  | nil => simp [parseUnitsGo, parseOneUnit]
  | cons c t =>
    rw [← hr]
    have hlen : r.length = t.length + 1 := by rw [hr]; rfl
    rw [hlen]
    unfold parseUnitsGo
    cases h1 : parseOneUnit r with
    | none => rfl
    | some ur =>
      obtain ⟨u, r3⟩ := ur
      have hlt := parseOneUnit_length_lt h1
      by_cases h3 : r3.isEmpty
      · simp [h3]
      · simp only [h3, if_false]
        rw [parseUnitsGo_fuel t.length r3.length r3 (by omega) (by omega)]
        rfl

/-! ## Claim theorems (part 1) -/

/-- Claim C6: the raw text made of the block
`85.50% (.pdf) Adobe Portable Document Format` with detail line
`Mime type: application/pdf`, a blank line, and the block
`10.00% (.ps) PostScript` parses to exactly those two records, in order,
with no error. -/
theorem c6_example_end_to_end :
    parseOutputM (chars "85.50% (.pdf) Adobe Portable Document Format\nMime type: application/pdf\n\n10.00% (.ps) PostScript") =
      ([{ Extension := chars ".pdf", Probability := mkRat 171 2,
          Name := chars "Adobe Portable Document Format",
          MimeType := chars "application/pdf", RelatedURL := [], Remarks := [],
          Definition := [] },
        { Extension := chars ".ps", Probability := mkRat 10 1,
          Name := chars "PostScript", MimeType := [], RelatedURL := [],
          Remarks := [], Definition := [] }], none) := by
  decide

/-- Claim C2: `checkTridError` is exactly the first-match scan, in the fixed
priority order no-file-specified, no-definitions-available,
empty-definitions-package (both substrings required), file-not-found,
unknown-file-type, over its five case-sensitive substring signatures, and it
returns `none` when no signature matches (which is what `firstMatching`
yields on an exhausted list). -/
theorem c2_classifier_first_match :
    ∀ out : List Char, checkTridError out = firstMatching errorSignatures out := by
  intro out
  rfl

/-- Claim C3: `Scan` validates in the order: empty path (no-file-specified,
regardless of anything else), then missing file (file-not-found; other stat
failures propagate as the underlying error), then match count below one
(invalid-match-count); in every such case no subprocess is started
(`invoked = none`) and no parsing happens. -/
theorem c3_validation_order :
    (∀ defs n stat out oerr, scanModel defs [] n stat out oerr =
      { files := none, error := some .noFileSpecified, invoked := none, parsed := false }) ∧
    (∀ defs p n out oerr, p ≠ [] → scanModel defs p n .notExist out oerr =
      { files := none, error := some .fileNotFound, invoked := none, parsed := false }) ∧
    (∀ defs p n m out oerr, p ≠ [] → scanModel defs p n (.otherErr m) out oerr =
      { files := none, error := some (.underlying m), invoked := none, parsed := false }) ∧
    (∀ defs p n out oerr, p ≠ [] → n < 1 → scanModel defs p n .ok out oerr =
      { files := none, error := some .numberOfMatches, invoked := none, parsed := false }) := by
  refine ⟨?_, ?_, ?_, ?_⟩
  · intro defs n stat out oerr
    rfl
  · intro defs p n out oerr hp
    cases p with
    | nil => exact absurd rfl hp
    | cons c t => rfl
  · intro defs p n m out oerr hp
    cases p with
    | nil => exact absurd rfl hp
    | cons c t => rfl
  · intro defs p n out oerr hp hn
    cases p with
    | nil => exact absurd rfl hp
    | cons c t => simp [scanModel, hn]

/-- Witness for C3 at concrete inputs. -/
theorem c3_validation_order_witness :
    scanModel (chars "") (chars "") 1 .ok (chars "") none =
      { files := none, error := some .noFileSpecified, invoked := none, parsed := false } ∧
    scanModel [] (chars "f") 1 .notExist [] none =
      { files := none, error := some .fileNotFound, invoked := none, parsed := false } ∧
    scanModel [] (chars "f") 0 .ok [] none =
      { files := none, error := some .numberOfMatches, invoked := none, parsed := false } :=
  ⟨c3_validation_order.1 (chars "") 1 .ok (chars "") none,
   c3_validation_order.2.1 [] (chars "f") 1 [] none (by decide),
   c3_validation_order.2.2.2 [] (chars "f") 0 [] none (by decide) (by decide)⟩

/-- Claim C4: every scan outcome carries either a record sequence (possibly
empty) with no error or exactly one error with no records, never both; and
whenever the classifier matches the captured text, its classified error is
returned with no records and the report parser never runs. -/
theorem c4_records_xor_error :
    (∀ defs p n stat out oerr,
      ((scanModel defs p n stat out oerr).files.isSome = true ↔
        (scanModel defs p n stat out oerr).error = none)) ∧
    (∀ defs p n out oerr e, p ≠ [] → ¬ n < 1 → checkTridError out = some e →
      (scanModel defs p n .ok out oerr).files = none ∧
      (scanModel defs p n .ok out oerr).error = some e ∧
      (scanModel defs p n .ok out oerr).parsed = false) := by
  constructor
  · intro defs p n stat out oerr
    cases p with
    | nil => simp [scanModel]
    | cons c t =>
      cases stat with
      | notExist => simp [scanModel]
      | otherErr m => simp [scanModel]
      | ok =>
        by_cases hn : n < 1
        · simp [scanModel, hn]
        · cases hc : checkTridError out with
          | some e => simp [scanModel, hn, hc]
          | none =>
            cases oerr with
            | some m => simp [scanModel, hn, hc]
            | none => simp [scanModel, hn, hc, parseOutputM]
  · intro defs p n out oerr e hp hn hc
    cases p with
    | nil => exact absurd rfl hp
    | cons c t => simp [scanModel, hn, hc]

/-- Witness for C4 at concrete inputs. -/
theorem c4_records_xor_error_witness :
    (scanModel [] (chars "f") 1 .ok (chars "Unknown!") none).files = none ∧
    (scanModel [] (chars "f") 1 .ok (chars "Unknown!") none).error =
      some .unknownFileType ∧
    (scanModel [] (chars "f") 1 .ok (chars "Unknown!") none).parsed = false :=
  c4_records_xor_error.2 [] (chars "f") 1 (chars "Unknown!") none .unknownFileType
    (by decide) (by decide) (by decide)

/-- Claim C8: when a scan reaches subprocess invocation, the argument list
is, in order: the verbose flag `-v`, the match-count flag `-n:<integer>`,
the definitions flag `-d:<path>` exactly when a definitions package is
configured, and the target file path as the last argument. -/
theorem c8_argument_list (defs p : List Char) (n : Int) (out : List Char)
    (oerr : Option (List Char)) (hp : p ≠ []) (hn : ¬ n < 1) :
    (scanModel defs p n .ok out oerr).invoked =
      some ([chars "-v", chars "-n:" ++ itoa n] ++
        (if defs.isEmpty then [] else [chars "-d:" ++ defs]) ++ [p]) ∧
    ∀ l, (scanModel defs p n .ok out oerr).invoked = some l →
      ∃ front, l = front ++ [p] := by
  cases p with
  | nil => exact absurd rfl hp
  | cons c t =>
    have hmain : (scanModel defs (c :: t) n .ok out oerr).invoked =
        some ([chars "-v", chars "-n:" ++ itoa n] ++
          (if defs.isEmpty then [] else [chars "-d:" ++ defs]) ++ [c :: t]) := by
      cases hc : checkTridError out with
      | some e => simp [scanModel, hn, hc]
      | none =>
        cases oerr with
        | some m => simp [scanModel, hn, hc]
        | none => simp [scanModel, hn, hc]
    refine ⟨hmain, ?_⟩
    intro l hl
    rw [hmain] at hl
    refine ⟨[chars "-v", chars "-n:" ++ itoa n] ++
      (if defs.isEmpty then [] else [chars "-d:" ++ defs]), ?_⟩
    exact (Option.some.inj hl).symm

/-- Witness for C8 at concrete inputs (a configured definitions package). -/
theorem c8_argument_list_witness :
    (scanModel (chars "pkg") (chars "file.bin") 3 .ok (chars "") none).invoked =
      some [chars "-v", chars "-n:3", chars "-d:pkg", chars "file.bin"] := by
  have h := (c8_argument_list (chars "pkg") (chars "file.bin") 3 (chars "") none
    (by decide) (by decide)).1
  rw [h]
  decide

/-- Claim C5: `parseOutput` never returns an error (its error component is
literally nil); a block whose header does not match is skipped; a block
whose cleaned probability field is empty or fails numeric parsing is
skipped; and when no block matches the result is the empty sequence with no
error. -/
theorem c5_parse_never_errors :
    (∀ out, (parseOutputM out).2 = none) ∧
    (∀ b, findHeader (splitLines b) = none → processBlock b = none) ∧
    (∀ b g1 g2 g3, findHeader (splitLines b) = some (g1, g2, g3) →
      (probField g1 = [] ∨ parseDecimal (probField g1) = none) →
      processBlock b = none) ∧
    (∀ out, (∀ b ∈ splitOnBlank (replaceCRLF out), processBlock b = none) →
      parseOutputM out = ([], none)) := by
  refine ⟨fun out => rfl, ?_, ?_, ?_⟩
  · intro b hb
    unfold processBlock
    rw [hb]
  · intro b g1 g2 g3 hb hskip
    unfold processBlock
    rw [hb]
    rcases hskip with h | h
    · simp [h]
    · by_cases he : (probField g1).isEmpty
      · simp [he]
      · simp [he, h]
  · intro out hall
    unfold parseOutputM
    rw [List.filterMap_eq_nil_iff.mpr hall]

/-- Witness for C5 at concrete inputs: a header-less block, a block whose
probability field has two dots (float parse fails), and an output with no
matching block. -/
theorem c5_parse_never_errors_witness :
    processBlock (chars "collecting data ...") = none ∧
    processBlock (chars "1.2.3% (.a) X") = none ∧
    parseOutputM (chars "TrID/32 - File Identifier") = ([], none) :=
  ⟨c5_parse_never_errors.2.1 (chars "collecting data ...") (by decide),
   c5_parse_never_errors.2.2.1 (chars "1.2.3% (.a) X")
     (chars "1.2.3%") (chars ".a") (chars "X") (by decide) (Or.inr (by decide)),
   c5_parse_never_errors.2.2.2 (chars "TrID/32 - File Identifier") (by decide)⟩

/-- Counterexample to claim C1 as stated: for the well-formed header
`85.50% (.pdf) Adobe PDF (1000/1)` (name `N = Adobe PDF (1000/1)`), the
parsed record's name is `Adobe PDF` — the final trailing parenthesized
qualifier group is stripped by the last (greedy, optional) group of
`reFileInfo`, so the name does not retain all qualifier groups verbatim. -/
theorem c1_counterexample :
    (parseOutputM (chars "85.50% (.pdf) Adobe PDF (1000/1)")).1 =
      [{ Extension := chars ".pdf", Probability := mkRat 171 2,
         Name := chars "Adobe PDF", MimeType := [], RelatedURL := [],
         Remarks := [], Definition := [] }] ∧
    chars "Adobe PDF" ≠ chars "Adobe PDF (1000/1)" := by
  decide

/-- Counterexample to claim C7 as stated: the detail line `XMime type: y`
has the unrecognized key `XMime type` (not one of the four keys), yet it
does not leave the record unchanged — the pattern finds `Mime type` as a
substring at offset 1 and the record's mime type becomes `y`. -/
theorem c7_counterexample :
    (parseOutputM (chars "50.00% (.a) B\nXMime type: y")).1 =
      [{ Extension := chars ".a", Probability := mkRat 50 1,
         Name := chars "B", MimeType := chars "y", RelatedURL := [],
         Remarks := [], Definition := [] }] ∧
    chars "XMime type" ∉ keyStrs := by
  decide

/-! ## Claim C9: the extension invariant -/

theorem toNat_ofNat_lower {n : Nat} (h1 : 97 ≤ n) (h2 : n ≤ 122) :
    (Char.ofNat n).toNat = n := by
  interval_cases n <;> decide

theorem asciiLower_idem (c : Char) : asciiLower (asciiLower c) = asciiLower c := by
  by_cases h : 65 ≤ c.toNat ∧ c.toNat ≤ 90
  · have ha : asciiLower c = Char.ofNat (c.toNat + 32) := by
      unfold asciiLower
      rw [if_pos h]
    have hv : (Char.ofNat (c.toNat + 32)).toNat = c.toNat + 32 :=
      toNat_ofNat_lower (by omega) (by omega)
    rw [ha]
    unfold asciiLower
    rw [if_neg (by rw [hv]; omega)]
  · unfold asciiLower
    rw [if_neg h, if_neg h]

theorem lowerL_idem (l : List Char) : lowerL (lowerL l) = lowerL l := by
  unfold lowerL
  rw [List.map_map]
  exact List.map_congr_left (fun a _ => asciiLower_idem a)

theorem matchHeaderAt_ext {l : List Char} {g1 g2 g3}
    (h : matchHeaderAt l = some (g1, g2, g3)) : ∃ e, g2 = '.' :: e := by
  unfold matchHeaderAt at h
  split at h
  · exact absurd h (by simp)
  · split at h
    · split at h
      · exact absurd h (by simp)
      · split at h
        · split at h
          · simp only [Option.some.injEq, Prod.mk.injEq] at h
            exact ⟨_, h.2.1.symm⟩
          · exact absurd h (by simp)
        · exact absurd h (by simp)
    · exact absurd h (by simp)

theorem scanHeader_ext : ∀ {l : List Char} {g1 g2 g3},
    scanHeader l = some (g1, g2, g3) → ∃ e, g2 = '.' :: e := by
  intro l
  induction l with
  | nil => intro g1 g2 g3 h; exact absurd h (by simp [scanHeader])
  | cons c t ih =>
    intro g1 g2 g3 h
    unfold scanHeader at h
    cases hm : matchHeaderAt (c :: t) with
    | some x =>
      rw [hm] at h
      simp only at h
      rw [h] at hm
      exact matchHeaderAt_ext hm
    | none =>
      rw [hm] at h
      simp only at h
      exact ih h

theorem findHeader_ext : ∀ {ls : List (List Char)} {g1 g2 g3},
    findHeader ls = some (g1, g2, g3) → ∃ e, g2 = '.' :: e := by
  intro ls
  induction ls with
  | nil => intro g1 g2 g3 h; exact absurd h (by simp [findHeader])
  | cons l t ih =>
    intro g1 g2 g3 h
    unfold findHeader at h
    cases hm : scanHeader l with
    | some x =>
      rw [hm] at h
      simp only at h
      rw [h] at hm
      exact scanHeader_ext hm
    | none =>
      rw [hm] at h
      simp only at h
      exact ih h

theorem applyDetail_fixed (f : FileType) (m : List Char × List Char) :
    (applyDetail f m).Extension = f.Extension ∧
    (applyDetail f m).Probability = f.Probability ∧
    (applyDetail f m).Name = f.Name := by
  unfold applyDetail
  split_ifs <;> exact ⟨rfl, rfl, rfl⟩

theorem foldl_applyDetail_fixed (ds : List (List Char × List Char)) :
    ∀ init : FileType, ((ds.foldl applyDetail init).Extension = init.Extension ∧
      (ds.foldl applyDetail init).Probability = init.Probability ∧
      (ds.foldl applyDetail init).Name = init.Name) := by
  induction ds with
  | nil => intro init; exact ⟨rfl, rfl, rfl⟩
  | cons m ms ih =>
    intro init
    have h1 := ih (applyDetail init m)
    have h2 := applyDetail_fixed init m
    simp only [List.foldl_cons]
    exact ⟨h1.1.trans h2.1, (h1.2.1.trans h2.2.1), h1.2.2.trans h2.2.2⟩

theorem processBlock_ext {b : List Char} {f : FileType}
    (h : processBlock b = some f) : ∃ e, f.Extension = lowerL ('.' :: e) := by
  unfold processBlock at h
  split at h
  · exact absurd h (by simp)
  · rename_i g1 g2 g3 hfind
    split at h
    · exact absurd h (by simp)
    · split at h
      · exact absurd h (by simp)
      · rename_i prob hprob
        obtain ⟨e, he⟩ := findHeader_ext hfind
        have hf := Option.some.inj h
        have hext := (foldl_applyDetail_fixed (detailsOf (splitLines b))
          { Extension := lowerL g2, Probability := prob, Name := g3,
            MimeType := [], RelatedURL := [], Remarks := [], Definition := [] }).1
        rw [hf] at hext
        exact ⟨e, by rw [hext, he]⟩

/-- Claim C9: every record returned by `parseOutput` has an extension that
begins with a literal dot and is a fixpoint of lower-casing — the header
pattern only accepts a parenthesized token starting with `.`; additionally,
a concrete block whose parenthesized token lacks the leading dot is skipped
and yields no record. -/
theorem c9_extension_invariant :
    (∀ out f, f ∈ (parseOutputM out).1 →
      (∃ e, f.Extension = '.' :: e) ∧ lowerL f.Extension = f.Extension) ∧
    (parseOutputM (chars "85.50% (pdf) Some format")).1 = [] := by
  constructor
  · intro out f hf
    unfold parseOutputM at hf
    simp only [List.mem_filterMap] at hf
    obtain ⟨b, _, hb⟩ := hf
    obtain ⟨e, he⟩ := processBlock_ext hb
    constructor
    · refine ⟨lowerL e, ?_⟩
      rw [he]
      show lowerL ('.' :: e) = '.' :: lowerL e
      unfold lowerL
      rw [List.map_cons]
      rfl
    · rw [he, lowerL_idem]
  · decide

/-- Witness for C9: the record parsed from an upper-case extension token. -/
theorem c9_extension_invariant_witness :
    (∃ e, (chars ".pdf") = '.' :: e) ∧ lowerL (chars ".pdf") = chars ".pdf" := by
  have h := c9_extension_invariant.1 (chars "85.50% (.PDF) Adobe")
    { Extension := chars ".pdf", Probability := mkRat 171 2,
      Name := chars "Adobe", MimeType := [], RelatedURL := [],
      Remarks := [], Definition := [] } (by decide)
  exact h

/-! ## Structural lemmas about line splitting and case-insensitive matching -/

theorem replaceCRLF_id : ∀ {l : List Char}, '\r' ∉ l → replaceCRLF l = l := by
  intro l
  induction l with
  | nil => intro _; rfl
  | cons c t ih =>
    intro h
    have hc : c ≠ '\r' := fun e => h (by rw [e]; exact List.mem_cons_self _ _)
    have ht : '\r' ∉ t := fun e => h (List.mem_cons_of_mem _ e)
    cases t with
    | nil => rfl
    | cons d t2 =>
      show replaceCRLF (c :: d :: t2) = c :: d :: t2
      unfold replaceCRLF
      rw [if_neg (fun hand => hc hand.1)]
      rw [ih ht]

theorem hasBlank_tail {c : Char} {t : List Char}
    (h : hasBlank (c :: t) = false) : hasBlank t = false := by
  cases t with
  | nil => rfl
  | cons d t2 =>
    unfold hasBlank at h
    simp only [Bool.or_eq_false_iff] at h
    exact h.2

theorem splitOnBlank_single : ∀ {l : List Char}, hasBlank l = false →
    splitOnBlank l = [l] := by
  intro l
  induction l with
  | nil => intro _; rfl
  | cons c t ih =>
    intro h
    cases t with
    | nil => rfl
    | cons d t2 =>
      have hcd : ¬(c = '\n' ∧ d = '\n') := by
        intro hand
        unfold hasBlank at h
        simp [hand.1, hand.2] at h
      show splitOnBlank (c :: d :: t2) = [c :: d :: t2]
      unfold splitOnBlank
      rw [if_neg hcd, ih (hasBlank_tail h)]

theorem splitLines_no_nl : ∀ {l : List Char}, '\n' ∉ l → splitLines l = [l] := by
  intro l
  induction l with
  | nil => intro _; rfl
  | cons c t ih =>
    intro h
    have hc : c ≠ '\n' := fun e => h (by rw [e]; exact List.mem_cons_self _ _)
    have ht : '\n' ∉ t := fun e => h (List.mem_cons_of_mem _ e)
    show splitLines (c :: t) = [c :: t]
    unfold splitLines
    rw [if_neg hc, ih ht]

theorem splitLines_append : ∀ {a : List Char} (r : List Char), '\n' ∉ a →
    splitLines (a ++ '\n' :: r) = a :: splitLines r := by
  intro a
  induction a with
  | nil =>
    intro r _
    show splitLines ('\n' :: r) = [] :: splitLines r
    conv_lhs => unfold splitLines
    rw [if_pos rfl]
  | cons c t ih =>
    intro r h
    have hc : c ≠ '\n' := fun e => h (by rw [e]; exact List.mem_cons_self _ _)
    have ht : '\n' ∉ t := fun e => h (List.mem_cons_of_mem _ e)
    show splitLines (c :: (t ++ '\n' :: r)) = (c :: t) :: splitLines r
    conv_lhs => unfold splitLines
    rw [if_neg hc, ih r ht]

theorem hasBlank_nl_cons {r : List Char} (hr : hasBlank r = false)
    (hh : r.head? ≠ some '\n') : hasBlank ('\n' :: r) = false := by
  cases r with
  | nil => rfl
  | cons e r2 =>
    have he : e ≠ '\n' := by
      intro he
      exact hh (by rw [he]; rfl)
    unfold hasBlank
    simp [he, hr]

theorem hasBlank_line_append : ∀ {a : List Char} {r : List Char}, '\n' ∉ a →
    hasBlank r = false → r.head? ≠ some '\n' →
    hasBlank (a ++ '\n' :: r) = false := by
  intro a
  induction a with
  | nil =>
    intro r _ hr hh
    exact hasBlank_nl_cons hr hh
  | cons c t ih =>
    intro r h hr hh
    have hc : c ≠ '\n' := fun e => h (by rw [e]; exact List.mem_cons_self _ _)
    have ht : '\n' ∉ t := fun e => h (List.mem_cons_of_mem _ e)
    have htail := ih ht hr hh
    cases t with
    | nil =>
      show hasBlank (c :: '\n' :: r) = false
      have htail2 : hasBlank ('\n' :: r) = false := htail
      unfold hasBlank
      simp [hc, htail2]
    | cons d t2 =>
      show hasBlank (c :: d :: (t2 ++ '\n' :: r)) = false
      unfold hasBlank
      simp only [Bool.or_eq_false_iff]
      refine ⟨by simp [hc], ?_⟩
      exact htail

theorem lowerL_append (a b : List Char) : lowerL (a ++ b) = lowerL a ++ lowerL b :=
  List.map_append _ _ _

theorem lowerL_length (l : List Char) : (lowerL l).length = l.length :=
  List.length_map _ _

theorem lowerL_take (n : Nat) (l : List Char) : lowerL (l.take n) = (lowerL l).take n :=
  List.map_take _ _ _

theorem lower_take_le {key2 low : List Char} (hlow : lowerL key2 = low) {n : Nat}
    (hn : n ≤ key2.length) (X : List Char) :
    lowerL ((key2 ++ X).take n) = low.take n := by
  rw [List.take_append_eq_append_take, Nat.sub_eq_zero_of_le hn, List.take_zero,
    List.append_nil, lowerL_take, hlow]

theorem lower_take_over {key2 low : List Char} (hlow : lowerL key2 = low) {n : Nat}
    (hn : key2.length ≤ n) (X : List Char) :
    lowerL ((key2 ++ X).take n) = low ++ lowerL (X.take (n - key2.length)) := by
  rw [List.take_append_eq_append_take, List.take_of_length_le hn, lowerL_append, hlow]

theorem take_key {key2 : List Char} (X : List Char) {n : Nat} (hn : n = key2.length) :
    (key2 ++ X).take n = key2 := by
  rw [hn]
  exact List.take_left _ _

theorem drop_key {key2 : List Char} (X : List Char) {n : Nat} (hn : n = key2.length) :
    (key2 ++ X).drop n = X := by
  rw [hn]
  exact List.drop_left _ _

theorem not_mem_of_ci {key2 low : List Char} (hlow : lowerL key2 = low) {c : Char}
    (hfix : asciiLower c = c) (hc : c ∉ low) : c ∉ key2 := by
  intro hmem
  have h2 : asciiLower c ∈ lowerL key2 := List.mem_map_of_mem asciiLower hmem
  rw [hfix, hlow] at h2
  exact hc h2

theorem ne_of_getElem {a b : List Char} (i : Nat) (h : a[i]? ≠ b[i]?) : a ≠ b :=
  fun e => h (e ▸ rfl)

theorem dropWhile_nospace {v : List Char} (hv : v.takeWhile isSpaceCh = []) :
    v.dropWhile isSpaceCh = v := by
  cases v with
  | nil => rfl
  | cons c vt =>
    rw [List.takeWhile_cons] at hv
    by_cases hc : isSpaceCh c
    · simp [hc] at hv
    · simp [List.dropWhile_cons, hc]

theorem tryKeys_skip {kb : List Char} {rest : List (List Char)} {l : List Char}
    (h : lowerL (l.take kb.length) ≠ lowerL kb) :
    tryKeys (kb :: rest) l = tryKeys rest l := by
  conv_lhs => unfold tryKeys
  rw [if_neg h]

theorem tryKeys_hit {kb : List Char} {rest : List (List Char)} {l : List Char}
    (h : lowerL (l.take kb.length) = lowerL kb) :
    tryKeys (kb :: rest) l =
      match (l.drop kb.length).drop ((l.drop kb.length).takeWhile isSpaceCh).length with
      | ':' :: r2 => some (l.take kb.length, r2.dropWhile isSpaceCh)
      | _ => tryKeys rest l := by
  conv_lhs => unfold tryKeys
  rw [if_pos h]

theorem scanDetail_cons {c : Char} {t : List Char} {x}
    (h : tryKeys keyStrs (c :: t) = some x) : scanDetail (c :: t) = some x := by
  unfold scanDetail
  rw [h]

theorem tryKeys_hit_colon {kb : List Char} {rest : List (List Char)}
    {key2 v : List Char} (hlen : kb.length = key2.length)
    (hci : lowerL ((key2 ++ ':' :: ' ' :: v).take kb.length) = lowerL kb) :
    tryKeys (kb :: rest) (key2 ++ ':' :: ' ' :: v) =
      some (key2, v.dropWhile isSpaceCh) := by
  conv_lhs => unfold tryKeys
  rw [if_pos hci]
  rw [drop_key (':' :: ' ' :: v) hlen]
  rw [take_key (':' :: ' ' :: v) hlen]
  rfl

theorem scanDetail_ci_line {k key2 v : List Char} (hk : k ∈ keyStrs)
    (hlow : lowerL key2 = lowerL k)
    (hv : v.takeWhile isSpaceCh = []) :
    scanDetail (key2 ++ ':' :: ' ' :: v) = some (key2, v) := by
  have hlen : key2.length = k.length := by
    have h1 := congrArg List.length hlow
    rw [lowerL_length, lowerL_length] at h1
    exact h1
  have hvd : v.dropWhile isSpaceCh = v := dropWhile_nospace hv
  have hkpos : 0 < k.length := by
    fin_cases hk <;> decide
  have htk : tryKeys keyStrs (key2 ++ ':' :: ' ' :: v) = some (key2, v) := by
    fin_cases hk
    · -- k = "Mime type"
      have hci : lowerL ((key2 ++ ':' :: ' ' :: v).take (chars "Mime type").length) =
          lowerL (chars "Mime type") := by
        rw [take_key _ hlen.symm, hlow]
      show tryKeys (chars "Mime type" ::
        [chars "Related URL", chars "Definition", chars "Remarks"]) _ = _
      rw [tryKeys_hit_colon hlen.symm hci, hvd]
    · -- k = "Related URL"
      have h1 : lowerL ((key2 ++ ':' :: ' ' :: v).take (chars "Mime type").length) ≠
          lowerL (chars "Mime type") := by
        rw [lower_take_le hlow (by rw [hlen]; decide)]
        decide
      have hci : lowerL ((key2 ++ ':' :: ' ' :: v).take (chars "Related URL").length) =
          lowerL (chars "Related URL") := by
        rw [take_key _ hlen.symm, hlow]
      show tryKeys (chars "Mime type" ::
        [chars "Related URL", chars "Definition", chars "Remarks"]) _ = _
      rw [tryKeys_skip h1, tryKeys_hit_colon hlen.symm hci, hvd]
    · -- k = "Definition"
      have h1 : lowerL ((key2 ++ ':' :: ' ' :: v).take (chars "Mime type").length) ≠
          lowerL (chars "Mime type") := by
        rw [lower_take_le hlow (by rw [hlen]; decide)]
        decide
      have h2 : lowerL ((key2 ++ ':' :: ' ' :: v).take (chars "Related URL").length) ≠
          lowerL (chars "Related URL") := by
        rw [lower_take_over hlow (by rw [hlen]; decide), hlen]
        rw [show List.take ((chars "Related URL").length - (chars "Definition").length)
          (':' :: ' ' :: v) = [':'] from rfl]
        decide
      have hci : lowerL ((key2 ++ ':' :: ' ' :: v).take (chars "Definition").length) =
          lowerL (chars "Definition") := by
        rw [take_key _ hlen.symm, hlow]
      show tryKeys (chars "Mime type" ::
        [chars "Related URL", chars "Definition", chars "Remarks"]) _ = _
      rw [tryKeys_skip h1, tryKeys_skip h2, tryKeys_hit_colon hlen.symm hci, hvd]
    · -- k = "Remarks"
      have h1 : lowerL ((key2 ++ ':' :: ' ' :: v).take (chars "Mime type").length) ≠
          lowerL (chars "Mime type") := by
        rw [lower_take_over hlow (by rw [hlen]; decide), hlen]
        rw [show List.take ((chars "Mime type").length - (chars "Remarks").length)
          (':' :: ' ' :: v) = [':', ' '] from rfl]
        decide
      have h2 : lowerL ((key2 ++ ':' :: ' ' :: v).take (chars "Related URL").length) ≠
          lowerL (chars "Related URL") := by
        rw [lower_take_over hlow (by rw [hlen]; decide), hlen]
        apply ne_of_getElem 2
        rw [List.getElem?_append_left (by decide)]
        decide
      have h3 : lowerL ((key2 ++ ':' :: ' ' :: v).take (chars "Definition").length) ≠
          lowerL (chars "Definition") := by
        rw [lower_take_over hlow (by rw [hlen]; decide), hlen]
        apply ne_of_getElem 0
        rw [List.getElem?_append_left (by decide)]
        decide
      have hci : lowerL ((key2 ++ ':' :: ' ' :: v).take (chars "Remarks").length) =
          lowerL (chars "Remarks") := by
        rw [take_key _ hlen.symm, hlow]
      show tryKeys (chars "Mime type" ::
        [chars "Related URL", chars "Definition", chars "Remarks"]) _ = _
      rw [tryKeys_skip h1, tryKeys_skip h2, tryKeys_skip h3,
        tryKeys_hit_colon hlen.symm hci, hvd]
  have hpos : 0 < key2.length := by rw [hlen]; exact hkpos
  cases key2 with
  | nil => simp at hpos
  | cons c t => exact scanDetail_cons htk

theorem hasBlank_of_no_nl : ∀ {l : List Char}, '\n' ∉ l → hasBlank l = false := by
  intro l
  induction l with
  | nil => intro _; rfl
  | cons c t ih =>
    intro h
    have hc : c ≠ '\n' := fun e => h (by rw [e]; exact List.mem_cons_self _ _)
    have ht : '\n' ∉ t := fun e => h (List.mem_cons_of_mem _ e)
    cases t with
    | nil => rfl
    | cons d t2 =>
      show hasBlank (c :: d :: t2) = false
      unfold hasBlank
      simp only [Bool.or_eq_false_iff]
      exact ⟨by simp [hc], ih ht⟩

/-- Claim C10: a detail line whose key equals one of the four keys only up
to letter case is matched by the case-insensitive detail pattern (the pair
extracted carries the original-cased key text and the value), but the key
dispatch compares case-sensitively, so nothing is attached and all four
detail fields of the block's record stay empty. -/
theorem c10_ci_key_not_attached (k key2 v : List Char) (hk : k ∈ keyStrs)
    (hlow : lowerL key2 = lowerL k) (hne : key2 ≠ k)
    (hv1 : '\n' ∉ v) (hv2 : '\r' ∉ v) (hv3 : v.takeWhile isSpaceCh = []) :
    detailsOf (splitLines (chars "50.00% (.a) B" ++ '\n' :: (key2 ++ ':' :: ' ' :: v))) =
      [(key2, v)] ∧
    (parseOutputM (chars "50.00% (.a) B" ++ '\n' :: (key2 ++ ':' :: ' ' :: v))).1 =
      [{ Extension := chars ".a", Probability := mkRat 50 1, Name := chars "B",
         MimeType := [], RelatedURL := [], Remarks := [], Definition := [] }] := by
  have hnlk : '\n' ∉ lowerL k := by fin_cases hk <;> decide
  have hcrk : '\r' ∉ lowerL k := by fin_cases hk <;> decide
  have hnl_key : '\n' ∉ key2 := not_mem_of_ci hlow (by decide) hnlk
  have hcr_key : '\r' ∉ key2 := not_mem_of_ci hlow (by decide) hcrk
  have hnl_line : '\n' ∉ key2 ++ ':' :: ' ' :: v := by
    intro hmem
    rcases List.mem_append.mp hmem with h | h
    · exact hnl_key h
    · simp only [List.mem_cons] at h
      rcases h with h | h | h
      · exact absurd h (by decide)
      · exact absurd h (by decide)
      · exact hv1 h
  have hcr_line : '\r' ∉ key2 ++ ':' :: ' ' :: v := by
    intro hmem
    rcases List.mem_append.mp hmem with h | h
    · exact hcr_key h
    · simp only [List.mem_cons] at h
      rcases h with h | h | h
      · exact absurd h (by decide)
      · exact absurd h (by decide)
      · exact hv2 h
  have hlen : key2.length = k.length := by
    have h1 := congrArg List.length hlow
    rw [lowerL_length, lowerL_length] at h1
    exact h1
  have hkpos : 0 < key2.length := by
    rw [hlen]
    fin_cases hk <;> decide
  have hhead : (key2 ++ ':' :: ' ' :: v).head? ≠ some '\n' := by
    cases key2 with
    | nil => simp at hkpos
    | cons c t =>
      intro he
      simp only [List.cons_append, List.head?_cons, Option.some.injEq] at he
      exact hnl_key (by rw [he]; exact List.mem_cons_self _ _)
  have hsplit : splitLines (chars "50.00% (.a) B" ++ '\n' :: (key2 ++ ':' :: ' ' :: v)) =
      [chars "50.00% (.a) B", key2 ++ ':' :: ' ' :: v] := by
    rw [splitLines_append _ (by decide), splitLines_no_nl hnl_line]
  have hblank : hasBlank (chars "50.00% (.a) B" ++ '\n' :: (key2 ++ ':' :: ' ' :: v)) = false :=
    hasBlank_line_append (by decide) (hasBlank_of_no_nl hnl_line) hhead
  have hcr_blk : '\r' ∉ chars "50.00% (.a) B" ++ '\n' :: (key2 ++ ':' :: ' ' :: v) := by
    intro hmem
    rcases List.mem_append.mp hmem with h | h
    · exact absurd h (by decide)
    · simp only [List.mem_cons] at h
      rcases h with h | h
      · exact absurd h (by decide)
      · exact hcr_line h
  have hdet : detailsOf [chars "50.00% (.a) B", key2 ++ ':' :: ' ' :: v] = [(key2, v)] := by
    show List.filterMap scanDetail _ = _
    rw [List.filterMap_cons_none (by decide),
      List.filterMap_cons_some (scanDetail_ci_line hk hlow hv3)]
    rfl
  have hnoteq : ∀ k2 ∈ keyStrs, key2 ≠ k2 := by
    intro k2 hk2 e
    by_cases hsame : k2 = k
    · exact hne (hsame ▸ e)
    · rw [e] at hlow
      have hll : lowerL k2 ≠ lowerL k := by
        revert hsame
        fin_cases hk <;> fin_cases hk2 <;> intro hsame <;>
          first
          | exact absurd rfl hsame
          | decide
      exact hll hlow
  have happ : ∀ f : FileType, applyDetail f (key2, v) = f := by
    intro f
    unfold applyDetail
    rw [if_neg (hnoteq (chars "Mime type") (by decide)),
      if_neg (hnoteq (chars "Related URL") (by decide)),
      if_neg (hnoteq (chars "Definition") (by decide)),
      if_neg (hnoteq (chars "Remarks") (by decide))]
  have hpb : processBlock (chars "50.00% (.a) B" ++ '\n' :: (key2 ++ ':' :: ' ' :: v)) =
      some { Extension := chars ".a", Probability := mkRat 50 1, Name := chars "B",
             MimeType := [], RelatedURL := [], Remarks := [], Definition := [] } := by
    unfold processBlock
    rw [hsplit]
    have hfh : findHeader [chars "50.00% (.a) B", key2 ++ ':' :: ' ' :: v] =
        some (chars "50.00%", chars ".a", chars "B") := by
      unfold findHeader
      rw [show scanHeader (chars "50.00% (.a) B") =
        some (chars "50.00%", chars ".a", chars "B") from by decide]
    simp only [hfh, show (probField (chars "50.00%")).isEmpty = false from by decide,
      Bool.false_eq_true, if_false,
      show parseDecimal (probField (chars "50.00%")) = some (mkRat 50 1) from by decide,
      hdet, List.foldl_cons, List.foldl_nil, happ]
    decide
  refine ⟨by rw [hsplit]; exact hdet, ?_⟩
  show (parseOutputM _).1 = _
  unfold parseOutputM
  rw [replaceCRLF_id hcr_blk, splitOnBlank_single hblank]
  show List.filterMap processBlock _ = _
  rw [List.filterMap_cons_some hpb]
  rfl

/-- Witness for C10 at the claim's example `MIME TYPE: x`. -/
theorem c10_ci_key_not_attached_witness :
    detailsOf (splitLines (chars "50.00% (.a) B" ++ '\n' ::
      (chars "MIME TYPE" ++ ':' :: ' ' :: chars "x"))) =
      [(chars "MIME TYPE", chars "x")] ∧
    (parseOutputM (chars "50.00% (.a) B" ++ '\n' ::
      (chars "MIME TYPE" ++ ':' :: ' ' :: chars "x"))).1 =
      [{ Extension := chars ".a", Probability := mkRat 50 1, Name := chars "B",
         MimeType := [], RelatedURL := [], Remarks := [], Definition := [] }] :=
  c10_ci_key_not_attached (chars "Mime type") (chars "MIME TYPE") (chars "x")
    (by decide) (by decide) (by decide) (by decide) (by decide) (by decide)

/-! ## Claim C7: detail lines, last-occurrence-wins, ignored lines -/

theorem keyStr_mem (k : DKey) : keyStr k ∈ keyStrs := by
  cases k <;> decide

theorem startsWithL_iff : ∀ {pat l : List Char},
    startsWithL pat l = true ↔ l.take pat.length = pat := by
  intro pat
  induction pat with
  | nil => intro l; simp [startsWithL]
  | cons a as ih =>
    intro l
    cases l with
    | nil => simp [startsWithL]
    | cons b bs =>
      show (decide (a = b) && startsWithL as bs) = true ↔ _
      simp only [List.length_cons, List.take_succ_cons, List.cons.injEq,
        Bool.and_eq_true, decide_eq_true_eq]
      rw [ih]
      constructor
      · rintro ⟨h1, h2⟩
        exact ⟨h1.symm, h2⟩
      · rintro ⟨h1, h2⟩
        exact ⟨h1.symm, h2⟩

theorem containsSub_of_startsWith {h nd : List Char}
    (hs : startsWithL nd h = true) : containsSub h nd = true := by
  unfold containsSub
  rw [hs]
  simp

theorem containsSub_of_tail {c : Char} {t nd : List Char}
    (hs : containsSub t nd = true) : containsSub (c :: t) nd = true := by
  show (startsWithL nd (c :: t) || containsSub t nd) = true
  rw [hs]
  simp

theorem tryKeys_none : ∀ {ks : List (List Char)} {l : List Char},
    (∀ k2 ∈ ks, lowerL (l.take k2.length) ≠ lowerL k2) → tryKeys ks l = none := by
  intro ks
  induction ks with
  | nil => intro l _; rfl
  | cons k2 rest ih =>
    intro l h
    rw [tryKeys_skip (h k2 (List.mem_cons_self _ _))]
    exact ih (fun k3 hk3 => h k3 (List.mem_cons_of_mem _ hk3))

theorem scanDetail_none_of_no_key : ∀ {u : List Char},
    (∀ k2 ∈ keyStrs, containsSub (lowerL u) (lowerL k2) = false) →
    scanDetail u = none := by
  intro u
  induction u with
  | nil => intro _; rfl
  | cons c t ih =>
    intro h
    have hstep : ∀ k2 ∈ keyStrs, containsSub (lowerL t) (lowerL k2) = false := by
      intro k2 hk2
      by_contra hc
      have hc2 : containsSub (lowerL t) (lowerL k2) = true := by
        cases hgo : containsSub (lowerL t) (lowerL k2) with
        | true => rfl
        | false => exact absurd hgo hc
      have : containsSub (lowerL (c :: t)) (lowerL k2) = true := by
        show containsSub (asciiLower c :: lowerL t) (lowerL k2) = true
        exact containsSub_of_tail hc2
      rw [h k2 hk2] at this
      exact absurd this (by simp)
    have htk : tryKeys keyStrs (c :: t) = none := by
      apply tryKeys_none
      intro k2 hk2 hci
      have hlensub : (lowerL k2).length = k2.length := lowerL_length k2
      have hstart : startsWithL (lowerL k2) (lowerL (c :: t)) = true := by
        rw [startsWithL_iff, hlensub, ← lowerL_take, hci]
      have := containsSub_of_startsWith hstart
      rw [h k2 hk2] at this
      exact absurd this (by simp)
    show scanDetail (c :: t) = none
    unfold scanDetail
    rw [htk]
    exact ih hstep

theorem splitLines_joinLines : ∀ {ls : List (List Char)}, ls ≠ [] →
    (∀ l ∈ ls, '\n' ∉ l) → splitLines (joinLines ls) = ls := by
  intro ls
  induction ls with
  | nil => intro h _; exact absurd rfl h
  | cons l rest ih =>
    intro _ hall
    cases rest with
    | nil =>
      show splitLines l = [l]
      exact splitLines_no_nl (hall l (List.mem_cons_self _ _))
    | cons l2 rest2 =>
      show splitLines (l ++ '\n' :: joinLines (l2 :: rest2)) = l :: l2 :: rest2
      rw [splitLines_append _ (hall l (List.mem_cons_self _ _))]
      rw [ih (by simp) (fun l3 h3 => hall l3 (List.mem_cons_of_mem _ h3))]

theorem joinLines_head? : ∀ {l2 : List Char} {rest : List (List Char)}, l2 ≠ [] →
    (joinLines (l2 :: rest)).head? = l2.head? := by
  intro l2 rest h2
  cases rest with
  | nil => rfl
  | cons l3 rest3 =>
    show (l2 ++ '\n' :: joinLines (l3 :: rest3)).head? = l2.head?
    cases l2 with
    | nil => exact absurd rfl h2
    | cons c t => rfl

theorem hasBlank_joinLines : ∀ {ls : List (List Char)},
    (∀ l ∈ ls, '\n' ∉ l) → (∀ l ∈ ls, l ≠ []) →
    hasBlank (joinLines ls) = false := by
  intro ls
  induction ls with
  | nil => intro _ _; rfl
  | cons l rest ih =>
    intro hnl hne
    cases rest with
    | nil => exact hasBlank_of_no_nl (hnl l (List.mem_cons_self _ _))
    | cons l2 rest2 =>
      show hasBlank (l ++ '\n' :: joinLines (l2 :: rest2)) = false
      apply hasBlank_line_append (hnl l (List.mem_cons_self _ _))
      · exact ih (fun l3 h3 => hnl l3 (List.mem_cons_of_mem _ h3))
          (fun l3 h3 => hne l3 (List.mem_cons_of_mem _ h3))
      · rw [joinLines_head? (hne l2 (by simp))]
        cases l2 with
        | nil => exact absurd rfl (hne [] (by simp))
        | cons c t =>
          intro he
          simp only [List.head?_cons, Option.some.injEq] at he
          exact hnl (c :: t) (by simp) (by rw [he]; exact List.mem_cons_self _ _)

theorem not_mem_joinLines {ch : Char} (hch : ch ≠ '\n') :
    ∀ {ls : List (List Char)}, (∀ l ∈ ls, ch ∉ l) → ch ∉ joinLines ls := by
  intro ls
  induction ls with
  | nil => intro _; simp [joinLines]
  | cons l rest ih =>
    intro hall
    cases rest with
    | nil => exact hall l (List.mem_cons_self _ _)
    | cons l2 rest2 =>
      show ch ∉ l ++ '\n' :: joinLines (l2 :: rest2)
      intro hmem
      rcases List.mem_append.mp hmem with h | h
      · exact hall l (List.mem_cons_self _ _) h
      · simp only [List.mem_cons] at h
        rcases h with h | h
        · exact hch h
        · exact ih (fun l3 h3 => hall l3 (List.mem_cons_of_mem _ h3)) h

theorem applyDetail_key (f : FileType) (v : List Char) :
    applyDetail f (keyStr .mime, v) = { f with MimeType := v } ∧
    applyDetail f (keyStr .url, v) = { f with RelatedURL := v } ∧
    applyDetail f (keyStr .defn, v) = { f with Definition := v } ∧
    applyDetail f (keyStr .remarks, v) = { f with Remarks := v } := by
  refine ⟨?_, ?_, ?_, ?_⟩
  · unfold applyDetail keyStr
    dsimp only
    rw [if_pos rfl]
  · unfold applyDetail keyStr
    dsimp only
    rw [if_neg (by decide), if_pos rfl]
  · unfold applyDetail keyStr
    dsimp only
    rw [if_neg (by decide), if_neg (by decide), if_pos rfl]
  · unfold applyDetail keyStr
    dsimp only
    rw [if_neg (by decide), if_neg (by decide), if_neg (by decide), if_pos rfl]

theorem foldl_applyDetail_spec : ∀ (ds : List (DKey × List Char)) (init : FileType),
    (ds.map (fun p => (keyStr p.1, p.2))).foldl applyDetail init =
      { Extension := init.Extension, Probability := init.Probability,
        Name := init.Name,
        MimeType := lastValD ds .mime init.MimeType,
        RelatedURL := lastValD ds .url init.RelatedURL,
        Remarks := lastValD ds .remarks init.Remarks,
        Definition := lastValD ds .defn init.Definition } := by
  intro ds
  induction ds with
  | nil => intro init; rfl
  | cons p ds2 ih =>
    intro init
    obtain ⟨k, v⟩ := p
    rw [List.map_cons, List.foldl_cons, ih (applyDetail init (keyStr k, v))]
    cases k
    · rw [(applyDetail_key init v).1]
      rfl
    · rw [(applyDetail_key init v).2.1]
      rfl
    · rw [(applyDetail_key init v).2.2.1]
      rfl
    · rw [(applyDetail_key init v).2.2.2]
      rfl

theorem filterMap_scanDetail_lines : ∀ (ds : List (DKey × List Char)),
    (∀ p ∈ ds, p.2.takeWhile isSpaceCh = []) →
    List.filterMap scanDetail (ds.map mkDetailLine) =
      ds.map (fun p => (keyStr p.1, p.2)) := by
  intro ds
  induction ds with
  | nil => intro _; rfl
  | cons p ds2 ih =>
    intro h
    obtain ⟨k, v⟩ := p
    show List.filterMap scanDetail (mkDetailLine (k, v) :: List.map mkDetailLine ds2) =
      (keyStr k, v) :: List.map (fun p => (keyStr p.1, p.2)) ds2
    rw [show mkDetailLine (k, v) = keyStr k ++ ':' :: ' ' :: v from rfl]
    rw [List.filterMap_cons_some
      (scanDetail_ci_line (keyStr_mem k) rfl (h (k, v) (List.mem_cons_self _ _)))]
    rw [ih (fun p2 h2 => h p2 (List.mem_cons_of_mem _ h2))]

theorem parse_single_block (dls : List (List Char))
    (hnl : ∀ l ∈ dls, '\n' ∉ l) (hne : ∀ l ∈ dls, l ≠ [])
    (hcr : ∀ l ∈ dls, '\r' ∉ l) :
    parseOutputM (joinLines (chars "50.00% (.a) B" :: dls)) =
      ([(List.filterMap scanDetail dls).foldl applyDetail
          { Extension := chars ".a", Probability := mkRat 50 1, Name := chars "B",
            MimeType := [], RelatedURL := [], Remarks := [], Definition := [] }],
        none) := by
  have hlines : ∀ l ∈ (chars "50.00% (.a) B" :: dls), '\n' ∉ l := by
    intro l hl
    rcases List.mem_cons.mp hl with rfl | hl2
    · decide
    · exact hnl l hl2
  have hnonempty : ∀ l ∈ (chars "50.00% (.a) B" :: dls), l ≠ [] := by
    intro l hl
    rcases List.mem_cons.mp hl with rfl | hl2
    · decide
    · exact hne l hl2
  have hcrj : '\r' ∉ joinLines (chars "50.00% (.a) B" :: dls) := by
    apply not_mem_joinLines (by decide)
    intro l hl
    rcases List.mem_cons.mp hl with rfl | hl2
    · decide
    · exact hcr l hl2
  have hsl : splitLines (joinLines (chars "50.00% (.a) B" :: dls)) =
      chars "50.00% (.a) B" :: dls :=
    splitLines_joinLines (by simp) hlines
  have hblank := hasBlank_joinLines hlines hnonempty
  have hpb : processBlock (joinLines (chars "50.00% (.a) B" :: dls)) =
      some ((List.filterMap scanDetail dls).foldl applyDetail
        { Extension := chars ".a", Probability := mkRat 50 1, Name := chars "B",
          MimeType := [], RelatedURL := [], Remarks := [], Definition := [] }) := by
    unfold processBlock
    rw [hsl]
    have hfh : findHeader (chars "50.00% (.a) B" :: dls) =
        some (chars "50.00%", chars ".a", chars "B") := by
      unfold findHeader
      rw [show scanHeader (chars "50.00% (.a) B") =
        some (chars "50.00%", chars ".a", chars "B") from by decide]
    simp only [hfh, show (probField (chars "50.00%")).isEmpty = false from by decide,
      Bool.false_eq_true, if_false,
      show parseDecimal (probField (chars "50.00%")) = some (mkRat 50 1) from by decide]
    rw [show detailsOf (chars "50.00% (.a) B" :: dls) =
        List.filterMap scanDetail dls from by
      show List.filterMap scanDetail _ = _
      rw [List.filterMap_cons_none (by decide)]]
    rw [show lowerL (chars ".a") = chars ".a" from by decide]
  unfold parseOutputM
  rw [replaceCRLF_id hcrj, splitOnBlank_single hblank]
  rw [List.filterMap_cons_some hpb]
  rfl

/-- Claim C7 (amended): within one block, each detail line `<Key>: <value>`
with a recognized key sets that field to the value running to the end of
the line, and when several lines carry the same key the last occurrence
wins (`lastValD`); a key absent from the block leaves its field empty; and
a line in which none of the four key phrases occurs as a case-insensitive
substring leaves the result unchanged.  (The original claim's clause about
arbitrary unrecognized keys is corrected by `c7_counterexample`: key
recognition is a substring scan, so an unrecognized key that contains a
recognized key phrase is treated as carrying that key.)  Values are
required non-empty and to start with a non-whitespace character: on a
detail line whose value is empty the greedy `\s*` of `reFileDetails`
consumes the line break, so the following line's text becomes the captured
value — that cross-line behaviour is outside this theorem's scope. -/
theorem c7_detail_semantics (ds : List (DKey × List Char))
    (hwf : ∀ p ∈ ds, p.2 ≠ [] ∧ '\n' ∉ p.2 ∧ '\r' ∉ p.2 ∧
      p.2.takeWhile isSpaceCh = []) :
    (parseOutputM (joinLines (chars "50.00% (.a) B" :: ds.map mkDetailLine))).1 =
      [{ Extension := chars ".a", Probability := mkRat 50 1, Name := chars "B",
         MimeType := lastValD ds .mime [], RelatedURL := lastValD ds .url [],
         Remarks := lastValD ds .remarks [],
         Definition := lastValD ds .defn [] }] ∧
    (∀ u : List Char, u ≠ [] → '\n' ∉ u → '\r' ∉ u →
      (∀ k2 ∈ keyStrs, containsSub (lowerL u) (lowerL k2) = false) →
      parseOutputM (joinLines (chars "50.00% (.a) B" :: (ds.map mkDetailLine ++ [u]))) =
        parseOutputM (joinLines (chars "50.00% (.a) B" :: ds.map mkDetailLine))) := by
  have hprops : ∀ l ∈ ds.map mkDetailLine, '\n' ∉ l ∧ '\r' ∉ l ∧ l ≠ [] := by
    intro l hl
    obtain ⟨p, hp, rfl⟩ := List.mem_map.mp hl
    obtain ⟨_, h1, h2, _⟩ := hwf p hp
    have hknl : '\n' ∉ keyStr p.1 := by cases p.1 <;> decide
    have hkcr : '\r' ∉ keyStr p.1 := by cases p.1 <;> decide
    refine ⟨?_, ?_, ?_⟩
    · intro hmem
      rcases List.mem_append.mp hmem with h | h
      · exact hknl h
      · simp only [List.mem_cons] at h
        rcases h with h | h | h
        · exact absurd h (by decide)
        · exact absurd h (by decide)
        · exact h1 h
    · intro hmem
      rcases List.mem_append.mp hmem with h | h
      · exact hkcr h
      · simp only [List.mem_cons] at h
        rcases h with h | h | h
        · exact absurd h (by decide)
        · exact absurd h (by decide)
        · exact h2 h
    · show keyStr p.1 ++ ':' :: ' ' :: p.2 ≠ []
      simp
  have hbase := parse_single_block (ds.map mkDetailLine)
    (fun l hl => (hprops l hl).1) (fun l hl => (hprops l hl).2.2)
    (fun l hl => (hprops l hl).2.1)
  constructor
  · rw [hbase]
    show List.foldl _ _ _ :: _ = _
    rw [filterMap_scanDetail_lines ds (fun p hp => (hwf p hp).2.2.2),
      foldl_applyDetail_spec]
  · intro u hu1 hu2 hu3 hu4
    have hprops2 : ∀ l ∈ ds.map mkDetailLine ++ [u], '\n' ∉ l ∧ '\r' ∉ l ∧ l ≠ [] := by
      intro l hl
      rcases List.mem_append.mp hl with h | h
      · exact hprops l h
      · simp only [List.mem_singleton] at h
        subst h
        exact ⟨hu2, hu3, hu1⟩
    rw [parse_single_block (ds.map mkDetailLine ++ [u])
      (fun l hl => (hprops2 l hl).1) (fun l hl => (hprops2 l hl).2.2)
      (fun l hl => (hprops2 l hl).2.1), hbase]
    rw [List.filterMap_append,
      show List.filterMap scanDetail [u] = [] from by
        rw [List.filterMap_cons_none (scanDetail_none_of_no_key hu4)]
        rfl,
      List.append_nil]

/-- Witness for C7: two mime lines (last wins), one remarks line, and an
appended line containing no key phrase. -/
theorem c7_detail_semantics_witness :
    (parseOutputM (joinLines (chars "50.00% (.a) B" ::
      List.map mkDetailLine [(.mime, chars "a/b"), (.remarks, chars "r1"),
        (.mime, chars "c/d")]))).1 =
      [{ Extension := chars ".a", Probability := mkRat 50 1, Name := chars "B",
         MimeType := chars "c/d", RelatedURL := [], Remarks := chars "r1",
         Definition := [] }] ∧
    parseOutputM (joinLines (chars "50.00% (.a) B" ::
      (List.map mkDetailLine [(.mime, chars "a/b"), (.remarks, chars "r1"),
        (.mime, chars "c/d")] ++ [chars "collecting data"]))) =
      parseOutputM (joinLines (chars "50.00% (.a) B" ::
        List.map mkDetailLine [(.mime, chars "a/b"), (.remarks, chars "r1"),
          (.mime, chars "c/d")])) := by
  have h := c7_detail_semantics
    [(.mime, chars "a/b"), (.remarks, chars "r1"), (.mime, chars "c/d")]
    (by decide)
  exact ⟨h.1, h.2 (chars "collecting data") (by decide) (by decide) (by decide)
    (by decide)⟩

/-! ## Claim C1: well-formed headers -/

theorem takeWhile_append_all {p : Char → Bool} : ∀ {a b : List Char},
    (∀ c ∈ a, p c = true) → (a ++ b).takeWhile p = a ++ b.takeWhile p := by
  intro a
  induction a with
  | nil => intro b _; rfl
  | cons c t ih =>
    intro b h
    show ((c :: t) ++ b).takeWhile p = (c :: t) ++ b.takeWhile p
    rw [List.cons_append, List.takeWhile_cons, h c (List.mem_cons_self _ _)]
    simp only [if_true]
    rw [ih (fun d hd => h d (List.mem_cons_of_mem _ hd))]
    rfl

theorem takeWhile_stop {p : Char → Bool} {c : Char} {t : List Char}
    (h : p c = false) : (c :: t).takeWhile p = [] := by
  rw [List.takeWhile_cons, h]
  rfl

theorem trimSpace_eq_self {l : List Char} (h : ∀ c ∈ l, isSpaceCh c = false) :
    trimSpace l = l := by
  unfold trimSpace
  have h1 : l.dropWhile isSpaceCh = l := by
    rw [List.dropWhile_eq_self_iff]
    intro hl
    rw [h _ (List.get_mem l 0 hl)]
    simp
  rw [h1]
  have h2 : l.reverse.dropWhile isSpaceCh = l.reverse := by
    rw [List.dropWhile_eq_self_iff]
    intro hl
    rw [h _ (List.mem_reverse.mp (List.get_mem l.reverse 0 hl))]
    simp
  rw [h2, List.reverse_reverse]

theorem parseOneUnit_mk {ws ct rest : List Char}
    (hws : ws ≠ []) (hwsall : ∀ c ∈ ws, isSpaceCh c = true)
    (hct : ct ≠ []) (hctall : ∀ c ∈ ct, isQualCh c = true) :
    parseOneUnit (ws ++ ('(' :: (ct ++ ')' :: rest))) =
      some (ws ++ ('(' :: (ct ++ [')'])), rest) := by
  have htw : List.takeWhile isSpaceCh (ws ++ ('(' :: (ct ++ ')' :: rest))) = ws := by
    rw [takeWhile_append_all hwsall, takeWhile_stop (by decide), List.append_nil]
  have htq : List.takeWhile isQualCh (ct ++ ')' :: rest) = ct := by
    rw [takeWhile_append_all hctall, takeWhile_stop (by decide), List.append_nil]
  have hwsE : ws.isEmpty = false := by
    cases ws with
    | nil => exact absurd rfl hws
    | cons a t => rfl
  have hctE : ct.isEmpty = false := by
    cases ct with
    | nil => exact absurd rfl hct
    | cons a t => rfl
  have hdrop1 : List.drop ws.length (ws ++ ('(' :: (ct ++ ')' :: rest))) =
      '(' :: (ct ++ ')' :: rest) := List.drop_left ws _
  have hdrop2 : List.drop ct.length (ct ++ ')' :: rest) = ')' :: rest :=
    List.drop_left ct _
  simp only [parseOneUnit, htw, hwsE, Bool.false_eq_true, if_false, hdrop1,
    htq, hctE, hdrop2, List.append_assoc, List.cons_append, List.nil_append]

theorem parseUnits_none_of_one {r : List Char}
    (h : parseOneUnit r = none) : parseUnits r = none := by
  rw [parseUnits_eq, h]

theorem parseUnits_step {r : List Char} {u r3} (h : parseOneUnit r = some (u, r3)) :
    parseUnits r =
      if r3.isEmpty then some [u]
      else
        match parseUnits r3 with
        | none => none
        | some us => some (u :: us) := by
  rw [parseUnits_eq, h]

theorem unitsText_ne_nil {us : List (List Char × List Char)} (hne : us ≠ [])
    (hwf : ∀ p ∈ us, wfUnit p) : unitsText us ≠ [] := by
  cases us with
  | nil => exact absurd rfl hne
  | cons p rest =>
    show mkUnit p ++ unitsText rest ≠ []
    have := (hwf p (List.mem_cons_self _ _)).1
    cases hws : p.1 with
    | nil => exact absurd hws this
    | cons c t => simp [mkUnit, hws]

theorem parseUnits_unitsText : ∀ {us : List (List Char × List Char)}, us ≠ [] →
    (∀ p ∈ us, wfUnit p) → parseUnits (unitsText us) = some (us.map mkUnit) := by
  intro us
  induction us with
  | nil => intro h _; exact absurd rfl h
  | cons p rest ih =>
    intro _ hwf
    obtain ⟨hws, hwsall, hct, hctall⟩ := hwf p (List.mem_cons_self _ _)
    have hmk : unitsText (p :: rest) =
        p.1 ++ ('(' :: (p.2 ++ ')' :: unitsText rest)) := by
      show mkUnit p ++ unitsText rest = _
      simp [mkUnit, List.append_assoc]
    rw [hmk, parseUnits_step
      (parseOneUnit_mk hws (fun c hc => (hwsall c hc).1) hct (fun c hc => (hctall c hc).1))]
    cases rest with
    | nil =>
      show (if (unitsText []).isEmpty = true then _ else _) = _
      simp [unitsText, mkUnit, List.append_assoc]
    | cons p2 rest2 =>
      have hne2 : unitsText (p2 :: rest2) ≠ [] :=
        unitsText_ne_nil (by simp)
          (fun p3 h3 => hwf p3 (List.mem_cons_of_mem _ h3))
      have hne2E : (unitsText (p2 :: rest2)).isEmpty = false := by
        cases hu : unitsText (p2 :: rest2) with
        | nil => exact absurd hu hne2
        | cons a t => rfl
      rw [if_neg (by simp [hne2E])]
      rw [ih (by simp) (fun p3 h3 => hwf p3 (List.mem_cons_of_mem _ h3))]
      simp [mkUnit, List.append_assoc]

theorem parseOneUnit_none_no_paren {r : List Char} (h : '(' ∉ r) :
    parseOneUnit r = none := by
  unfold parseOneUnit
  by_cases hE : (r.takeWhile isSpaceCh).isEmpty
  · rw [if_pos hE]
  · rw [if_neg hE]
    cases hdw : r.drop (r.takeWhile isSpaceCh).length with
    | nil => rfl
    | cons d t =>
      have hdmem : d ∈ r := by
        have hmem : d ∈ r.drop (r.takeWhile isSpaceCh).length := by
          rw [hdw]
          exact List.mem_cons_self _ _
        exact List.mem_of_mem_drop hmem
      have hdne : d ≠ '(' := fun e => h (e ▸ hdmem)
      split
      · rename_i r2 heq
        exact absurd (List.cons.inj heq).1 hdne
      · rfl

theorem parseOneUnit_base_none {b U : List Char} (hb : b ≠ []) (hpar : '(' ∉ b)
    (hlast : ∀ z, b.getLast? = some z → isSpaceCh z = false) :
    parseOneUnit (b ++ U) = none := by
  have hsplitb := List.takeWhile_append_dropWhile isSpaceCh b
  cases hdwb : b.dropWhile isSpaceCh with
  | nil =>
    exfalso
    have hbtw : b.takeWhile isSpaceCh = b := by
      conv_rhs => rw [← hsplitb]
      rw [hdwb, List.append_nil]
    have hball : ∀ c ∈ b, isSpaceCh c = true := by
      intro c hc
      rw [← hbtw] at hc
      exact List.mem_takeWhile_imp hc
    cases hgl : b.getLast? with
    | none => exact hb (List.getLast?_eq_none_iff.mp hgl)
    | some z =>
      have h1 := hball z (List.mem_of_mem_getLast? hgl)
      rw [hlast z hgl] at h1
      exact absurd h1 (by simp)
  | cons d b2 =>
    have hddrop : b.dropWhile isSpaceCh ≠ [] := by rw [hdwb]; simp
    have hd_space : isSpaceCh d = false := by
      have h1 := List.head_dropWhile_not isSpaceCh b hddrop
      have h2 : (b.dropWhile isSpaceCh).head hddrop = d := by
        have h3 : (b.dropWhile isSpaceCh).head? = some d := by
          rw [hdwb]
          rfl
        rw [List.head?_eq_head] at h3
        exact Option.some.inj h3
      rw [h2] at h1
      exact h1
    have hdmem : d ∈ b := by
      have hmem : d ∈ b.dropWhile isSpaceCh := by
        rw [hdwb]
        exact List.mem_cons_self _ _
      exact (List.dropWhile_sublist _).mem hmem
    have hdne : d ≠ '(' := fun e => hpar (e ▸ hdmem)
    have htwb : ∀ c ∈ b.takeWhile isSpaceCh, isSpaceCh c = true :=
      fun c hc => List.mem_takeWhile_imp hc
    have hbU : b ++ U = b.takeWhile isSpaceCh ++ (d :: (b2 ++ U)) := by
      conv_lhs => rw [← hsplitb]
      rw [hdwb]
      simp [List.append_assoc]
    have htw : (b ++ U).takeWhile isSpaceCh = b.takeWhile isSpaceCh := by
      rw [hbU, takeWhile_append_all htwb, takeWhile_stop hd_space, List.append_nil]
    unfold parseOneUnit
    rw [htw]
    by_cases hE : (b.takeWhile isSpaceCh).isEmpty
    · rw [if_pos hE]
    · rw [if_neg hE]
      have hdrop : List.drop (b.takeWhile isSpaceCh).length (b ++ U) =
          d :: (b2 ++ U) := by
        rw [hbU]
        exact List.drop_left _ _
      rw [hdrop]
      split
      · rename_i r2 heq
        exact absurd (List.cons.inj heq).1 hdne
      · rfl

theorem stripTailAux_units {U : List Char} {vs} (h : parseUnits U = some vs)
    (acc : List Char) : stripTailAux acc U = acc ++ vs.dropLast.flatten := by
  cases U with
  | nil =>
    rw [show parseUnits [] = none from rfl] at h
    exact absurd h (by simp)
  | cons c t =>
    show (match parseUnits (c :: t) with
      | some us => acc ++ us.dropLast.flatten
      | none => stripTailAux (acc ++ [c]) t) = acc ++ vs.dropLast.flatten
    rw [h]

theorem stripTailAux_step {acc : List Char} {c : Char} {t : List Char}
    (h : parseUnits (c :: t) = none) :
    stripTailAux acc (c :: t) = stripTailAux (acc ++ [c]) t := by
  show (match parseUnits (c :: t) with
    | some us => acc ++ us.dropLast.flatten
    | none => stripTailAux (acc ++ [c]) t) = stripTailAux (acc ++ [c]) t
  rw [h]

theorem stripTailAux_no_paren : ∀ (b acc : List Char), '(' ∉ b →
    stripTailAux acc b = acc ++ b := by
  intro b
  induction b with
  | nil =>
    intro acc _
    have h0 : stripTailAux acc [] = acc := rfl
    rw [h0, List.append_nil]
  | cons c b2 ih =>
    intro acc h
    have hnone : parseUnits (c :: b2) = none :=
      parseUnits_none_of_one (parseOneUnit_none_no_paren h)
    rw [stripTailAux_step hnone, ih (acc ++ [c])
      (fun hm => h (List.mem_cons_of_mem _ hm))]
    simp

theorem stripTailAux_walk : ∀ (b : List Char) (acc U : List Char)
    {vs : List (List Char)}, b ≠ [] → '(' ∉ b →
    (∀ z, b.getLast? = some z → isSpaceCh z = false) →
    parseUnits U = some vs →
    stripTailAux acc (b ++ U) = (acc ++ b) ++ vs.dropLast.flatten := by
  intro b
  induction b with
  | nil => intro acc U vs h _ _ _; exact absurd rfl h
  | cons c b2 ih =>
    intro acc U vs _ hpar hlast hU
    have hnone : parseUnits ((c :: b2) ++ U) = none :=
      parseUnits_none_of_one (parseOneUnit_base_none (by simp) hpar hlast)
    rw [show (c :: b2) ++ U = c :: (b2 ++ U) from rfl] at hnone ⊢
    rw [stripTailAux_step hnone]
    cases b2 with
    | nil =>
      rw [show ([] : List Char) ++ U = U from rfl]
      rw [stripTailAux_units hU]
    | cons c2 b3 =>
      rw [ih (acc ++ [c]) U (by simp)
        (fun hm => hpar (List.mem_cons_of_mem _ hm))
        (fun z hz => hlast z hz) hU]
      simp

theorem findExt_clean : ∀ {E : List Char} (acc N : List Char), ')' ∉ E →
    N.takeWhile isSpaceCh = [] →
    findExt acc (E ++ (')' :: (' ' :: N))) = some (acc ++ E, N) := by
  intro E
  induction E with
  | nil =>
    intro acc N _ hN
    show findExt acc (')' :: ' ' :: N) = some (acc ++ [], N)
    have h1 : List.takeWhile isSpaceCh (' ' :: N) = ' ' :: List.takeWhile isSpaceCh N := by
      rw [List.takeWhile_cons]
      rfl
    have h2 : List.dropWhile isSpaceCh (' ' :: N) = N := by
      rw [List.dropWhile_cons]
      simp only [show isSpaceCh ' ' = true from rfl, if_true]
      exact dropWhile_nospace hN
    unfold findExt
    rw [if_pos rfl, h1, hN]
    rw [if_neg (by decide)]
    rw [h2, List.append_nil]
  | cons e E2 ih =>
    intro acc N hE hN
    have he : e ≠ ')' := fun h => hE (by rw [h]; exact List.mem_cons_self _ _)
    show findExt acc (e :: (E2 ++ (')' :: (' ' :: N)))) = some (acc ++ e :: E2, N)
    unfold findExt
    rw [if_neg he]
    rw [ih (acc ++ [e]) N (fun hm => hE (List.mem_cons_of_mem _ hm)) hN]
    simp

theorem unitsText_flatten : ∀ (us : List (List Char × List Char)),
    (us.map mkUnit).flatten = unitsText us := by
  intro us
  induction us with
  | nil => rfl
  | cons p rest ih =>
    show (mkUnit p :: rest.map mkUnit).flatten = mkUnit p ++ unitsText rest
    rw [List.flatten_cons, ih]

theorem stripTail_name {b : List Char} {us : List (List Char × List Char)}
    (hbne : b ≠ []) (hbpar : '(' ∉ b)
    (hblast : ∀ z, b.getLast? = some z → isSpaceCh z = false)
    (hus : ∀ p ∈ us, wfUnit p) :
    stripTail (b ++ unitsText us) = b ++ unitsText us.dropLast := by
  cases us with
  | nil =>
    show stripTailAux [] (b ++ unitsText []) = _
    rw [show unitsText ([] : List (List Char × List Char)) = [] from rfl,
      List.append_nil, stripTailAux_no_paren b [] hbpar]
    simp [unitsText]
  | cons u1 us2 =>
    show stripTailAux [] (b ++ unitsText (u1 :: us2)) = _
    rw [stripTailAux_walk b [] (unitsText (u1 :: us2)) hbne hbpar hblast
      (parseUnits_unitsText (by simp) hus)]
    rw [List.nil_append]
    congr 1
    rw [← List.map_dropLast]
    exact unitsText_flatten _

theorem scanHeader_cons {c : Char} {t : List Char} {x}
    (h : matchHeaderAt (c :: t) = some x) : scanHeader (c :: t) = some x := by
  unfold scanHeader
  rw [h]

theorem digitDot_not_space {c : Char} (h : isDigitDotCh c = true) :
    isSpaceCh c = false := by
  cases hs : isSpaceCh c with
  | false => rfl
  | true =>
    exfalso
    unfold isSpaceCh at hs
    simp only [Bool.or_eq_true, decide_eq_true_eq] at hs
    rcases hs with (((e | e) | e) | e) | e <;> subst e <;>
      exact absurd h (by decide)

theorem mem_unitsText {c : Char} : ∀ {us : List (List Char × List Char)},
    c ∈ unitsText us → ∃ p ∈ us, c ∈ p.1 ∨ c = '(' ∨ c ∈ p.2 ∨ c = ')' := by
  intro us
  induction us with
  | nil => intro h; simp [unitsText] at h
  | cons p rest ih =>
    intro h
    rcases List.mem_append.mp h with h1 | h2
    · unfold mkUnit at h1
      rcases List.mem_append.mp h1 with hab | hd
      · rcases List.mem_append.mp hab with ha | hb
        · exact ⟨p, List.mem_cons_self _ _, Or.inl ha⟩
        · simp only [List.mem_cons] at hb
          rcases hb with e | hb2
          · exact ⟨p, List.mem_cons_self _ _, Or.inr (Or.inl e)⟩
          · exact ⟨p, List.mem_cons_self _ _, Or.inr (Or.inr (Or.inl hb2))⟩
      · simp only [List.mem_singleton] at hd
        exact ⟨p, List.mem_cons_self _ _, Or.inr (Or.inr (Or.inr hd))⟩
    · obtain ⟨p2, hp2, hc⟩ := ih h2
      exact ⟨p2, List.mem_cons_of_mem _ hp2, hc⟩

theorem last_not_space {b : List Char} (h : b.reverse.takeWhile isSpaceCh = []) :
    ∀ z, b.getLast? = some z → isSpaceCh z = false := by
  intro z hz
  have h1 : b.reverse.head? = some z := by
    rw [List.head?_reverse]
    exact hz
  cases hr : b.reverse with
  | nil => rw [hr] at h1; exact absurd h1 (by simp)
  | cons c t =>
    rw [hr] at h1
    have hcz : c = z := by simpa using h1
    subst hcz
    rw [hr] at h
    cases hs : isSpaceCh c with
    | false => rfl
    | true =>
      rw [List.takeWhile_cons, hs] at h
      simp at h

theorem matchHeaderAt_header {P E b : List Char} {us : List (List Char × List Char)}
    (hP : P ≠ []) (hPall : ∀ c ∈ P, isDigitDotCh c = true)
    (hE : ')' ∉ E)
    (hbne : b ≠ []) (hbpar : '(' ∉ b) (hbhead : b.takeWhile isSpaceCh = [])
    (hblast : ∀ z, b.getLast? = some z → isSpaceCh z = false)
    (hus : ∀ p ∈ us, wfUnit p) :
    matchHeaderAt (P ++ ('%' :: ' ' :: '(' :: '.' ::
        (E ++ (')' :: (' ' :: (b ++ unitsText us)))))) =
      some (P ++ ['%'], '.' :: E, b ++ unitsText us.dropLast) := by
  have hNtw : (b ++ unitsText us).takeWhile isSpaceCh = [] := by
    cases b with
    | nil => exact absurd rfl hbne
    | cons b0 b2 =>
      have hb0 : isSpaceCh b0 = false := by
        cases hsp : isSpaceCh b0 with
        | false => rfl
        | true =>
          rw [List.takeWhile_cons, hsp] at hbhead
          simp at hbhead
      exact takeWhile_stop hb0
  have htw1 : (P ++ ('%' :: ' ' :: '(' :: '.' ::
      (E ++ (')' :: (' ' :: (b ++ unitsText us)))))).takeWhile isDigitDotCh = P := by
    rw [takeWhile_append_all hPall, takeWhile_stop (by decide), List.append_nil]
  have hPE : P.isEmpty = false := by
    cases P with
    | nil => exact absurd rfl hP
    | cons a t => rfl
  have hdrop1 : List.drop P.length (P ++ ('%' :: ' ' :: '(' :: '.' ::
      (E ++ (')' :: (' ' :: (b ++ unitsText us)))))) =
      '%' :: ' ' :: '(' :: '.' :: (E ++ (')' :: (' ' :: (b ++ unitsText us)))) :=
    List.drop_left P _
  have hext := findExt_clean [] (b ++ unitsText us) hE hNtw
  rw [List.nil_append] at hext
  have hstrip := stripTail_name hbne hbpar hblast hus
  have hA : List.takeWhile isSpaceCh (' ' :: '(' :: '.' ::
      (E ++ (')' :: (' ' :: (b ++ unitsText us))))) = [' '] := rfl
  have hB : ([' '] : List Char).isEmpty = false := rfl
  have hC : List.drop ([' '] : List Char).length (' ' :: '(' :: '.' ::
      (E ++ (')' :: (' ' :: (b ++ unitsText us))))) =
      '(' :: '.' :: (E ++ (')' :: (' ' :: (b ++ unitsText us)))) := rfl
  simp only [matchHeaderAt, htw1, hPE, Bool.false_eq_true, if_false, hdrop1,
    hA, hB, hC, hext, hstrip]

theorem filter_pct_self {l : List Char} (h : ∀ c ∈ l, c ≠ '%') :
    l.filter (fun c => c ≠ '%') = l :=
  List.filter_eq_self.mpr (fun c hc => by simpa using h c hc)

theorem filter_pct_single : ([('%' : Char)].filter (fun c => c ≠ '%')) = [] := by
  decide

/-- Claim C1 (amended): a well-formed header `P% (.E) N`, where the name `N`
consists of a qualifier-free base `b` followed by the qualifier groups `us`,
parses to one record whose probability is the numeric value of `P`, whose
extension is the lowercasing of `.E`, and whose name is `b` followed by all
qualifier groups except the last — the final greedy optional group of
`reFileInfo` strips the last trailing qualifier group (see
`c1_counterexample`); qualifier groups before the last are retained
verbatim. -/
theorem c1_header_parse (P E b : List Char) (us : List (List Char × List Char))
    (q : ℚ)
    (hPall : ∀ c ∈ P, isDigitDotCh c = true)
    (hq : parseDecimal P = some q)
    (hE : ')' ∉ E) (hEnl : '\n' ∉ E) (hEcr : '\r' ∉ E)
    (hbne : b ≠ []) (hbpar : '(' ∉ b) (hbnl : '\n' ∉ b) (hbcr : '\r' ∉ b)
    (hbhead : b.takeWhile isSpaceCh = [])
    (hbrev : b.reverse.takeWhile isSpaceCh = [])
    (hus : ∀ p ∈ us, wfUnit p)
    (hnokey : ∀ k2 ∈ keyStrs, containsSub
      (lowerL (P ++ ('%' :: ' ' :: '(' :: '.' ::
        (E ++ (')' :: (' ' :: (b ++ unitsText us)))))))
      (lowerL k2) = false) :
    parseOutputM (P ++ ('%' :: ' ' :: '(' :: '.' ::
        (E ++ (')' :: (' ' :: (b ++ unitsText us)))))) =
      ([{ Extension := lowerL ('.' :: E), Probability := q,
          Name := b ++ unitsText us.dropLast,
          MimeType := [], RelatedURL := [], Remarks := [], Definition := [] }],
        none) := by
  have hP : P ≠ [] := by
    intro e
    rw [e, show parseDecimal [] = none from rfl] at hq
    exact absurd hq (by simp)
  have hblast := last_not_space hbrev
  have hUnl : '\n' ∉ unitsText us := by
    intro hm
    obtain ⟨p, hp, hc⟩ := mem_unitsText hm
    obtain ⟨_, hws, _, hct⟩ := hus p hp
    rcases hc with h | h | h | h
    · exact (hws _ h).2.1 rfl
    · exact absurd h (by decide)
    · exact (hct _ h).2.1 rfl
    · exact absurd h (by decide)
  have hUcr : '\r' ∉ unitsText us := by
    intro hm
    obtain ⟨p, hp, hc⟩ := mem_unitsText hm
    obtain ⟨_, hws, _, hct⟩ := hus p hp
    rcases hc with h | h | h | h
    · exact (hws _ h).2.2 rfl
    · exact absurd h (by decide)
    · exact (hct _ h).2.2 rfl
    · exact absurd h (by decide)
  have hHnl : '\n' ∉ P ++ ('%' :: ' ' :: '(' :: '.' ::
      (E ++ (')' :: (' ' :: (b ++ unitsText us))))) := by
    intro hm
    rcases List.mem_append.mp hm with h | h
    · exact absurd (hPall _ h) (by decide)
    · simp only [List.mem_cons] at h
      rcases h with e | e | e | e | h
      · exact absurd e (by decide)
      · exact absurd e (by decide)
      · exact absurd e (by decide)
      · exact absurd e (by decide)
      · rcases List.mem_append.mp h with h2 | h2
        · exact hEnl h2
        · simp only [List.mem_cons] at h2
          rcases h2 with e | e | h3
          · exact absurd e (by decide)
          · exact absurd e (by decide)
          · rcases List.mem_append.mp h3 with h4 | h4
            · exact hbnl h4
            · exact hUnl h4
  have hHcr : '\r' ∉ P ++ ('%' :: ' ' :: '(' :: '.' ::
      (E ++ (')' :: (' ' :: (b ++ unitsText us))))) := by
    intro hm
    rcases List.mem_append.mp hm with h | h
    · exact absurd (hPall _ h) (by decide)
    · simp only [List.mem_cons] at h
      rcases h with e | e | e | e | h
      · exact absurd e (by decide)
      · exact absurd e (by decide)
      · exact absurd e (by decide)
      · exact absurd e (by decide)
      · rcases List.mem_append.mp h with h2 | h2
        · exact hEcr h2
        · simp only [List.mem_cons] at h2
          rcases h2 with e | e | h3
          · exact absurd e (by decide)
          · exact absurd e (by decide)
          · rcases List.mem_append.mp h3 with h4 | h4
            · exact hbcr h4
            · exact hUcr h4
  have hma := matchHeaderAt_header hP hPall hE hbne hbpar hbhead hblast hus
  have hprob : probField (P ++ ['%']) = P := by
    unfold probField
    rw [List.filter_append, filter_pct_self (fun c hc e => by
      have h1 := hPall c hc
      rw [e] at h1
      exact absurd h1 (by decide)), filter_pct_single, List.append_nil]
    exact trimSpace_eq_self (fun c hc => digitDot_not_space (hPall c hc))
  have hPE : P.isEmpty = false := by
    cases P with
    | nil => exact absurd rfl hP
    | cons a t => rfl
  have hprobE : (probField (P ++ ['%'])).isEmpty = false := by
    rw [hprob]
    exact hPE
  have hq2 : parseDecimal (probField (P ++ ['%'])) = some q := by
    rw [hprob]
    exact hq
  cases P with
  | nil => exact absurd rfl hP
  | cons p0 P2 =>
    have hsc : scanHeader (p0 :: (P2 ++ ('%' :: ' ' :: '(' :: '.' ::
        (E ++ (')' :: (' ' :: (b ++ unitsText us))))))) =
        some ((p0 :: P2) ++ ['%'], '.' :: E, b ++ unitsText us.dropLast) :=
      scanHeader_cons hma
    have hfind : findHeader [(p0 :: P2) ++ ('%' :: ' ' :: '(' :: '.' ::
        (E ++ (')' :: (' ' :: (b ++ unitsText us)))))] =
        some ((p0 :: P2) ++ ['%'], '.' :: E, b ++ unitsText us.dropLast) := by
      unfold findHeader
      rw [show ((p0 :: P2) ++ ('%' :: ' ' :: '(' :: '.' ::
        (E ++ (')' :: (' ' :: (b ++ unitsText us)))))) = (p0 :: (P2 ++ ('%' :: ' ' :: '(' :: '.' ::
        (E ++ (')' :: (' ' :: (b ++ unitsText us))))))) from rfl, hsc]
    have hdet : detailsOf [(p0 :: P2) ++ ('%' :: ' ' :: '(' :: '.' ::
        (E ++ (')' :: (' ' :: (b ++ unitsText us)))))] = [] := by
      show List.filterMap scanDetail _ = _
      rw [List.filterMap_cons_none (scanDetail_none_of_no_key hnokey)]
      rfl
    have hpb : processBlock ((p0 :: P2) ++ ('%' :: ' ' :: '(' :: '.' ::
        (E ++ (')' :: (' ' :: (b ++ unitsText us)))))) =
        some { Extension := lowerL ('.' :: E), Probability := q,
               Name := b ++ unitsText us.dropLast,
               MimeType := [], RelatedURL := [], Remarks := [],
               Definition := [] } := by
      unfold processBlock
      rw [splitLines_no_nl hHnl]
      simp only [hfind, hprobE, Bool.false_eq_true, if_false, hq2, hdet,
        List.foldl_nil]
    unfold parseOutputM
    rw [replaceCRLF_id hHcr, splitOnBlank_single (hasBlank_of_no_nl hHnl),
      List.filterMap_cons_some hpb]
    rfl

theorem c1_header_parse_witness :
    parseOutputM (chars "85.50" ++ ('%' :: ' ' :: '(' :: '.' ::
        (chars "pdf" ++ (')' :: (' ' :: (chars "Adobe PDF" ++
          unitsText [([' '], chars "1000/1")])))))) =
      ([{ Extension := lowerL ('.' :: chars "pdf"), Probability := mkRat 171 2,
          Name := chars "Adobe PDF" ++
            unitsText (([([' '], chars "1000/1")] :
              List (List Char × List Char)).dropLast),
          MimeType := [], RelatedURL := [], Remarks := [], Definition := [] }],
        none) :=
  c1_header_parse (chars "85.50") (chars "pdf") (chars "Adobe PDF")
    [([' '], chars "1000/1")] (mkRat 171 2)
    (by decide) (by decide) (by decide) (by decide) (by decide)
    (by decide) (by decide) (by decide) (by decide)
    (by decide) (by decide) (by decide) (by decide)
